import Mathlib

/-!
Verification of the FileDock-Suite file-organization engine
(`src/FileDock-Suite.py`).

The filesystem is modelled shallowly: a state `FS` is the list of paths
(absolute path strings) of the files that currently exist; `rename`
models `Path.rename` (the source file disappears, the target appears).
Directories are not modelled (`mkdir` always succeeds and is a no-op
here).  Per-file I/O failures, which the Python code catches with
`try/except` around each item, are modelled by an explicit oracle of
`Bool` flags (one per item): a `true` flag means the underlying rename
raised, in which case the code appends an error message and the
filesystem is untouched, exactly as an exception leaves it.

Python decimal formatting `str(i)` (used in the `_dup{N}` and
`_restored{N}` collision-avoidance names) is modelled by `decStr`, and
`pathlib`'s `Path.name` / `Path.stem` / `Path.suffix` / `Path.with_name`
by `pathName` / `pathStem` / `pathSuffix` / `pathDir` on POSIX path
strings (paths handled by the engine always contain a `/`).
-/

namespace FileDock

/-! ### Decimal numerals (Python `str(i)`) -/

/-- Fuel-driven decimal digits of `n`, most significant first.
Model of Python `str(i)` for naturals; fuel `n+1` always suffices. -/
def decReprAux : Nat → Nat → List Char
  | 0, _ => []
  | fuel+1, n =>
    if n < 10 then [Nat.digitChar n]
    else decReprAux fuel (n / 10) ++ [Nat.digitChar (n % 10)]

/-- Decimal representation of `n` as a list of characters. -/
def decRepr (n : Nat) : List Char := decReprAux (n + 1) n

/-- Decimal representation of `n` as a string (Python `str(n)`). -/
def decStr (n : Nat) : String := ⟨decRepr n⟩

/-- Numeric value of a decimal digit character (inverse of `Nat.digitChar`
on `0..9`). -/
def digitVal (c : Char) : Nat :=
  if c = '0' then 0 else if c = '1' then 1 else if c = '2' then 2
  else if c = '3' then 3 else if c = '4' then 4 else if c = '5' then 5
  else if c = '6' then 6 else if c = '7' then 7 else if c = '8' then 8
  else 9

/-- Value of a big-endian decimal digit list. -/
def decVal (l : List Char) : Nat := l.foldl (fun a c => a * 10 + digitVal c) 0

/-! ### Case folding (Python `str.lower`, ASCII fragment) -/

/-- ASCII lower-casing of one character (Python `str.lower` restricted to
ASCII, which covers file extensions). -/
def lowerChar (c : Char) : Char :=
  if 'A' ≤ c ∧ c ≤ 'Z' then Char.ofNat (c.toNat + 32) else c

/-- ASCII lower-casing of a string. -/
def lowerStr (s : String) : String := ⟨s.data.map lowerChar⟩

/-! ### Category resolver (`find_category`, lines 58-63) -/

/-- The loaded category mapping: an insertion-ordered association list
from category name to its list of extensions, modelling the Python dict
`CATEGORIES` loaded from `config.json`. -/
abbrev CatMap := List (String × List String)

/-- `find_category(ext)`: lower-cases the extension, scans the categories
in order and returns the first whose extension list contains it,
falling back to `"OTHERS"`. -/
def find_category (cats : CatMap) (ext : String) : String :=
  match cats.find? (fun ce => decide (lowerStr ext ∈ ce.2)) with
  | some ce => ce.1
  | none => "OTHERS"

/-! ### Filesystem model and path helpers -/

/-- A filesystem state: the list of existing file paths. -/
abbrev FS := List String

/-- `src.rename(dest)`: the file at `src` disappears and a file at
`dest` appears. -/
def rename (fs : FS) (src dest : String) : FS := dest :: fs.erase src

/-- `Path.name`: the part of the path after the last `/`. -/
def pathName (p : String) : String :=
  ⟨(p.data.reverse.takeWhile (fun c => c ≠ '/')).reverse⟩

/-- `Path.parent` rendered as a string: the part before the last `/`. -/
def pathDir (p : String) : String :=
  ⟨((p.data.reverse.dropWhile (fun c => c ≠ '/')).drop 1).reverse⟩

/-- `pathlib` stem/suffix split of a file name: the suffix is the part
from the last dot on, provided that dot is neither the first nor the
last character of the name; otherwise the suffix is empty. -/
def splitStemSuffix (name : List Char) : List Char × List Char :=
  let r := name.reverse
  let pre := r.takeWhile (fun c => c ≠ '.')
  match r.dropWhile (fun c => c ≠ '.') with
  | [] => (name, [])
  | _ :: restStem =>
    if pre.isEmpty ∨ restStem.isEmpty then (name, [])
    else (restStem.reverse, '.' :: pre.reverse)

/-- `Path.stem`. -/
def pathStem (p : String) : String := ⟨(splitStemSuffix (pathName p).data).1⟩

/-- `Path.suffix`. -/
def pathSuffix (p : String) : String := ⟨(splitStemSuffix (pathName p).data).2⟩

/-! ### Safe move primitive (`safe_move`, lines 65-79) -/

/-- The `i`-th collision-avoidance candidate of `safe_move`:
`dest.parent / f"{dest.stem}_dup{i}{dest.suffix}"`. -/
def dupCandidate (dest : String) (i : Nat) : String :=
  pathDir dest ++ "/" ++ pathStem dest ++ "_dup" ++ decStr i ++ pathSuffix dest

/-- The `i`-th restore collision-avoidance candidate of
`undo_last_operation`: `orig.with_name(f"{orig.stem}_restored{i}{orig.suffix}")`. -/
def restoredCandidate (orig : String) (i : Nat) : String :=
  pathDir orig ++ "/" ++ pathStem orig ++ "_restored" ++ decStr i ++ pathSuffix orig

/-- The `while True` search for the first index `i` (counting up from
the start index) whose candidate name does not exist.  The Python loop
is unbounded; on a finite filesystem fuel `fs.length + 1` always finds
a free name (`findFree_spec` below). -/
def findFree (fs : FS) (g : Nat → String) : Nat → Nat → Nat
  | 0, i => i
  | fuel+1, i => if g i ∈ fs then findFree fs g fuel (i + 1) else i

/-- First `i ≥ 1` such that `dupCandidate dest i` does not exist. -/
def freeDupIdx (fs : FS) (dest : String) : Nat :=
  findFree fs (dupCandidate dest) (fs.length + 1) 1

/-- First `i ≥ 1` such that `restoredCandidate orig i` does not exist. -/
def freeRestoredIdx (fs : FS) (orig : String) : Nat :=
  findFree fs (restoredCandidate orig) (fs.length + 1) 1

/-- `safe_move(src, dest)`: if nothing exists at `dest`, rename `src`
to `dest`; otherwise rename it to the first free `_dup{N}` candidate.
Returns the new filesystem and the final path of the moved file. -/
def safe_move (fs : FS) (src dest : String) : FS × String :=
  if dest ∈ fs then
    let c := dupCandidate dest (freeDupIdx fs dest)
    (rename fs src c, c)
  else (rename fs src dest, dest)

/-! ### Organize operation (`organize_folder`, lines 141-171) -/

/-- One journal entry: `{'orig': original absolute path, 'new': new
absolute path}`. -/
structure MoveRec where
  orig : String
  new : String
deriving DecidableEq, Repr

/-- An immediate file child of the folder being organized, given by its
`pathlib` stem/suffix decomposition (`p.stem`, `p.suffix`), so that its
name is `stem ++ suf`. -/
structure FileEntry where
  stem : String
  suf : String
deriving DecidableEq, Repr

/-- The absolute path of a file child of `folder`. -/
def origPath (folder : String) (f : FileEntry) : String :=
  folder ++ "/" ++ f.stem ++ f.suf

/-- The destination `folder/category/name` that `organize_folder`
computes for a file. -/
def destPath (cats : CatMap) (folder : String) (f : FileEntry) : String :=
  folder ++ "/" ++ find_category cats f.suf ++ "/" ++ f.stem ++ f.suf

/-- The per-file error description appended on failure
(Python `f"Failed {p}: {e}"`; the exception text is elided). -/
def errMsg (folder : String) (f : FileEntry) : String :=
  "Failed " ++ origPath folder f

/-- The loop body of `organize_folder` over the enumerated items.  Each
item carries its failure-oracle flag: `true` means the move raised an
exception (caught per file: an error is recorded and the filesystem is
left as the exception left it, i.e. unchanged). -/
def organizeGo (cats : CatMap) (folder : String) :
    List (FileEntry × Bool) → FS → List MoveRec → List String →
    FS × List MoveRec × List String
  | [], fs, moves, errors => (fs, moves, errors)
  | (f, fail) :: rest, fs, moves, errors =>
    if fail then
      organizeGo cats folder rest fs moves (errors ++ [errMsg folder f])
    else
      let r := safe_move fs (origPath folder f) (destPath cats folder f)
      organizeGo cats folder rest r.1
        (moves ++ [⟨origPath folder f, r.2⟩]) errors

/-- `organize_folder(folder)`: classifies and moves every immediate file
child, then persists the journal iff at least one move succeeded.
Returns the new filesystem, the new journal state, the number of
successful moves, and the error list. -/
def organize_folder (cats : CatMap) (folder : String)
    (files : List (FileEntry × Bool)) (fs : FS)
    (journal : Option (List MoveRec)) :
    FS × Option (List MoveRec) × Nat × List String :=
  let r := organizeGo cats folder files fs [] []
  (r.1, if r.2.1.isEmpty then journal else some r.2.1, r.2.1.length, r.2.2)

/-! ### Undo (`undo_last_operation`, lines 173-210)

The persisted journal is modelled as `Option (List MoveRec)`: `none`
models an absent, corrupt or unreadable `undo_log.json` (`load_undo`
returns `None` in all those cases, lines 89-95). -/

/-- Processing of one `MoveRec` inside the reversed loop of
`undo_last_operation`.  Returns the new filesystem, whether the file
was restored, and an error message if the rename raised (`fail` flag).
A record whose `new` path no longer exists is skipped silently. -/
def undoRecord (fs : FS) (m : MoveRec) (fail : Bool) :
    FS × Bool × Option String :=
  if m.new ∈ fs then
    if fail then (fs, false, some ("Failed to restore " ++ m.orig))
    else if m.orig ∈ fs then
      (rename fs m.new (restoredCandidate m.orig (freeRestoredIdx fs m.orig)),
       true, none)
    else (rename fs m.new m.orig, true, none)
  else (fs, false, none)

/-- The loop of `undo_last_operation` over the already-reversed record
list, with one failure-oracle flag per record. -/
def undoGo : FS → List MoveRec → List Bool → FS × Nat × List String
  | fs, [], _ => (fs, 0, [])
  | fs, m :: rest, fails =>
    let r := undoRecord fs m (fails.headD false)
    let t := undoGo r.1 rest fails.tail
    (t.1, (if r.2.1 then 1 else 0) + t.2.1,
     (match r.2.2 with | some e => [e] | none => []) ++ t.2.2)

/-- The summary message of `undo_last_operation`. -/
def undoMsg (restored : Nat) (errors : List String) : String :=
  "Restored " ++ decStr restored ++ " files." ++
    (if errors.isEmpty then "" else " Some errors occurred; check error.log.")

/-- `undo_last_operation()`: if no journal is loadable, report and do
nothing; otherwise process the records in reverse order, delete the
journal unconditionally, and return the restore count and message.
Returns the new filesystem, the new journal state, the count and the
message. -/
def undo_last_operation (fs : FS) (journal : Option (List MoveRec))
    (fails : List Bool) : FS × Option (List MoveRec) × Nat × String :=
  match journal with
  | none => (fs, none, 0, "No undo data found.")
  | some moves =>
    let r := undoGo fs moves.reverse fails
    (r.1, none, r.2.1, undoMsg r.2.1 r.2.2)

/-! ### Duplicate detector (`find_duplicates`, lines 226-244)

A directory scan is modelled as a list of `(path, hash?)` pairs in
discovery order, where `hash? = none` models `md5_of_file` returning
`None` after an I/O error (lines 213-224).  Python dicts are modelled
by insertion-ordered association lists. -/

/-- Replace the value at the first occurrence of key `k`, or append
`(k, v)` if the key is absent (Python dict item assignment). -/
def aset {α : Type} (l : List (String × α)) (k : String) (v : α) :
    List (String × α) :=
  match l with
  | [] => [(k, v)]
  | (k', v') :: rest =>
    if k' = k then (k', v) :: rest else (k', v') :: aset rest k v

/-- One iteration of the `find_duplicates` loop: `mh` is `map_hash`
(hash of first occurrence → its path), `dup` the groups built so far. -/
def dupStep (mh : List (String × String)) (dup : List (String × List String))
    (p : String) (oh : Option String) :
    List (String × String) × List (String × List String) :=
  match oh with
  | none => (mh, dup)
  | some h =>
    if h = "" then (mh, dup)
    else
      match List.lookup h mh with
      | some p0 =>
        let l1 := (List.lookup h dup).getD [] ++ [p]
        let l2 := if p0 ∈ l1 then l1 else p0 :: l1
        (mh, aset dup h l2)
      | none => (mh ++ [(h, p)], dup)

/-- The `find_duplicates` loop over the scanned files. -/
def dupGo : List (String × Option String) →
    List (String × String) → List (String × List String) →
    List (String × List String)
  | [], _, dup => dup
  | (p, oh) :: rest, mh, dup =>
    let r := dupStep mh dup p oh
    dupGo rest r.1 r.2

/-- `find_duplicates(folder)`: groups the scanned files by content hash;
a group appears only once a second file with the same hash is seen, at
which point the first occurrence is inserted at the front. -/
def find_duplicates (files : List (String × Option String)) :
    List (String × List String) :=
  dupGo files [] []

/-! ### Metadata queries (`top_n_large` lines 246-258, `recent_files`
lines 260-270)

A scan is a list of `(path, size)` / `(path, mtime)` pairs in discovery
order; a `none` size models a failing `stat` (skipped by the inner
`try`).  Python's `list.sort(key=..., reverse=True)` is a stable
descending sort, modelled by stable insertion sort `sortByDesc`. -/

/-- Insert into a descending-sorted list, after any earlier element of
equal key (stability). -/
def insertByDesc {α : Type} (key : α → Int) (x : α) : List α → List α
  | [] => [x]
  | y :: ys => if key y ≤ key x then x :: y :: ys else y :: insertByDesc key x ys

/-- Stable descending sort by an integer key. -/
def sortByDesc {α : Type} (key : α → Int) : List α → List α
  | [] => []
  | x :: xs => insertByDesc key x (sortByDesc key xs)

/-- `top_n_large(folder, n)`: statable files sorted by size descending
(stable), truncated to the first `n`. -/
def top_n_large (files : List (String × Option Nat)) (n : Nat) :
    List (String × Nat) :=
  (sortByDesc (fun q => (q.2 : Int))
    (files.filterMap (fun q => q.2.map (fun s => (q.1, s))))).take n

/-- `recent_files(folder, days)`: files with modification time at least
`now - days*86400`, sorted by modification time descending. -/
def recent_files (files : List (String × Int)) (now days : Int) :
    List (String × Int) :=
  sortByDesc (fun q => q.2) (files.filter (fun q => now - days * 86400 ≤ q.2))

/-! ### Category count preview (`preview_counts`, lines 129-139)

The scan is modelled by the list of the suffixes of the immediate file
children, in discovery order. -/

/-- `counts[cat] = counts.get(cat, 0) + 1`. -/
def bump (counts : List (String × Nat)) (k : String) : List (String × Nat) :=
  aset counts k ((List.lookup k counts).getD 0 + 1)

/-- `preview_counts(folder)`: a zero count for every known category,
`OTHERS` ensured by `setdefault`, then one increment per file in the
category its suffix resolves to. -/
def preview_counts (cats : CatMap) (suffixes : List String) :
    List (String × Nat) :=
  let init := cats.map (fun c => (c.1, 0))
  let init := if (List.lookup "OTHERS" init).isSome then init
              else init ++ [("OTHERS", 0)]
  suffixes.foldl (fun counts suf => bump counts (find_category cats suf)) init

/-! ## Proof infrastructure -/

/-! ### Decimal numerals: round trip and injectivity -/

theorem decVal_append (l : List Char) (c : Char) :
    decVal (l ++ [c]) = decVal l * 10 + digitVal c := by
  simp [decVal, List.foldl_append]

theorem digitVal_digitChar (d : Nat) (h : d < 10) :
    digitVal (Nat.digitChar d) = d := by
  interval_cases d <;> decide

theorem decVal_decReprAux (fuel : Nat) :
    ∀ n, n < fuel → decVal (decReprAux fuel n) = n := by
  induction fuel with
  | zero => intro n h; omega
  | succ fuel ih =>
    intro n h
    by_cases h10 : n < 10
    · simp [decReprAux, h10, decVal, List.foldl, digitVal_digitChar n h10]
    · have hdiv : n / 10 < n := Nat.div_lt_self (by omega) (by omega)
      simp only [decReprAux, if_neg h10]
      rw [decVal_append, ih (n / 10) (by omega),
        digitVal_digitChar (n % 10) (Nat.mod_lt _ (by omega))]
      omega

theorem decVal_decRepr (n : Nat) : decVal (decRepr n) = n :=
  decVal_decReprAux (n + 1) n (Nat.lt_succ_self n)

theorem decRepr_injective : Function.Injective decRepr := by
  intro m n h
  rw [← decVal_decRepr m, ← decVal_decRepr n, h]

theorem decStr_injective : Function.Injective decStr := by
  intro m n h
  exact decRepr_injective (congrArg String.data h)

/-- Injectivity of a decimal numeral between a fixed prefix and a fixed
suffix (the shape of the `_dup{N}` and `_restored{N}` candidates). -/
theorem affix_decStr_injective (A B : String) :
    Function.Injective (fun i => A ++ decStr i ++ B) := by
  intro i j h
  have h2 : A.data ++ (decRepr i ++ B.data) = A.data ++ (decRepr j ++ B.data) := by
    have h1 := congrArg String.data h
    simpa [String.data_append, decStr] using h1
  exact decRepr_injective
    (List.append_cancel_right (List.append_cancel_left h2))

theorem dupCandidate_injective (dest : String) :
    Function.Injective (dupCandidate dest) :=
  affix_decStr_injective
    (pathDir dest ++ "/" ++ pathStem dest ++ "_dup") (pathSuffix dest)

theorem restoredCandidate_injective (orig : String) :
    Function.Injective (restoredCandidate orig) :=
  affix_decStr_injective
    (pathDir orig ++ "/" ++ pathStem orig ++ "_restored") (pathSuffix orig)

/-! ### The free-name search terminates within `fs.length + 1` probes -/

theorem exists_free_index (fs : FS) (g : Nat → String)
    (hg : Function.Injective g) (i : Nat) :
    ∃ k, k < fs.length + 1 ∧ g (i + k) ∉ fs := by
  by_contra hc
  push_neg at hc
  have hsub : (Finset.range (fs.length + 1)).image (fun k => g (i + k)) ⊆
      fs.toFinset := by
    intro x hx
    simp only [Finset.mem_image, Finset.mem_range] at hx
    obtain ⟨k, hk, rfl⟩ := hx
    exact List.mem_toFinset.2 (hc k hk)
  have hinj : Function.Injective (fun k => g (i + k)) := by
    intro a b hab
    have := hg hab
    omega
  have hcard := Finset.card_le_card hsub
  rw [Finset.card_image_of_injective _ hinj, Finset.card_range] at hcard
  have hlen := fs.toFinset_card_le
  omega

theorem findFree_spec (fs : FS) (g : Nat → String) :
    ∀ fuel i, (∃ k, k < fuel ∧ g (i + k) ∉ fs) →
      g (findFree fs g fuel i) ∉ fs ∧ i ≤ findFree fs g fuel i ∧
        ∀ j, i ≤ j → j < findFree fs g fuel i → g j ∈ fs := by
  intro fuel
  induction fuel with
  | zero =>
    rintro i ⟨k, hk, -⟩
    omega
  | succ fuel ih =>
    rintro i ⟨k, hk, hfree⟩
    by_cases hgi : g i ∈ fs
    · have hk0 : k ≠ 0 := by
        rintro rfl
        exact hfree hgi
      have hex : ∃ k', k' < fuel ∧ g (i + 1 + k') ∉ fs := by
        refine ⟨k - 1, by omega, ?_⟩
        have he : i + 1 + (k - 1) = i + k := by omega
        rw [he]
        exact hfree
      obtain ⟨h1, h2, h3⟩ := ih (i + 1) hex
      refine ⟨?_, ?_, ?_⟩ <;> simp only [findFree, if_pos hgi]
      · exact h1
      · omega
      · intro j hij hjlt
        rcases Nat.eq_or_lt_of_le hij with rfl | hij'
        · exact hgi
        · exact h3 j hij' hjlt
    · simp only [findFree, if_neg hgi]
      exact ⟨hgi, Nat.le_refl i, fun j hij hjlt => by omega⟩

theorem freeDupIdx_spec (fs : FS) (dest : String) :
    dupCandidate dest (freeDupIdx fs dest) ∉ fs ∧ 1 ≤ freeDupIdx fs dest ∧
      ∀ j, 1 ≤ j → j < freeDupIdx fs dest → dupCandidate dest j ∈ fs :=
  findFree_spec fs (dupCandidate dest) (fs.length + 1) 1
    (exists_free_index fs (dupCandidate dest) (dupCandidate_injective dest) 1)

theorem freeRestoredIdx_spec (fs : FS) (orig : String) :
    restoredCandidate orig (freeRestoredIdx fs orig) ∉ fs ∧
      1 ≤ freeRestoredIdx fs orig ∧
      ∀ j, 1 ≤ j → j < freeRestoredIdx fs orig → restoredCandidate orig j ∈ fs :=
  findFree_spec fs (restoredCandidate orig) (fs.length + 1) 1
    (exists_free_index fs (restoredCandidate orig)
      (restoredCandidate_injective orig) 1)

/-! ### Basic facts about `rename` and `safe_move` -/

theorem mem_rename_iff {fs : FS} (hnd : fs.Nodup) (src dest q : String) :
    q ∈ rename fs src dest ↔ q = dest ∨ (q ∈ fs ∧ q ≠ src) := by
  simp only [rename, List.mem_cons, hnd.mem_erase_iff]
  tauto

theorem rename_nodup {fs : FS} (hnd : fs.Nodup) {src dest : String}
    (hfresh : dest ∉ fs) : (rename fs src dest).Nodup := by
  simp only [rename, List.nodup_cons]
  exact ⟨fun hmem => hfresh (List.mem_of_mem_erase hmem), hnd.erase _⟩

theorem safe_move_eq (fs : FS) (src dest : String) :
    (safe_move fs src dest).1 = rename fs src (safe_move fs src dest).2 := by
  by_cases h : dest ∈ fs <;> simp [safe_move, h]

theorem safe_move_fresh (fs : FS) (src dest : String) :
    (safe_move fs src dest).2 ∉ fs := by
  by_cases h : dest ∈ fs
  · simp only [safe_move, if_pos h]
    exact (freeDupIdx_spec fs dest).1
  · simp only [safe_move, if_neg h]
    exact h

theorem safe_move_shape (fs : FS) (src dest : String) :
    (safe_move fs src dest).2 = dest ∨
      ∃ i, (safe_move fs src dest).2 = dupCandidate dest i := by
  by_cases h : dest ∈ fs
  · exact Or.inr ⟨freeDupIdx fs dest, by simp [safe_move, h]⟩
  · exact Or.inl (by simp [safe_move, h])

/-! ## Claim C1 -/

/-- Claim C1: `safe_move(src, dest)` moves to `dest` and returns it when
nothing exists there; if a file already exists at `dest` it instead moves
to the first unused `_dup{N}` candidate (N counted from 1), so that
afterwards the pre-existing destination file and the moved file both
exist under distinct paths, and no existing file is ever overwritten. -/
theorem safe_move_collision_spec (fs : FS) (src dest : String)
    (_hsrc : src ∈ fs) (hne : src ≠ dest) (hnd : fs.Nodup) :
    (dest ∉ fs → (safe_move fs src dest).2 = dest) ∧
    (dest ∈ fs →
      (safe_move fs src dest).2 = dupCandidate dest (freeDupIdx fs dest) ∧
      1 ≤ freeDupIdx fs dest ∧
      (∀ j, 1 ≤ j → j < freeDupIdx fs dest → dupCandidate dest j ∈ fs) ∧
      dest ∈ (safe_move fs src dest).1 ∧
      (safe_move fs src dest).2 ≠ dest) ∧
    (safe_move fs src dest).2 ∈ (safe_move fs src dest).1 ∧
    (safe_move fs src dest).2 ∉ fs ∧
    (∀ q ∈ fs, q ≠ src → q ∈ (safe_move fs src dest).1) := by
  have hfresh := safe_move_fresh fs src dest
  have heq := safe_move_eq fs src dest
  refine ⟨?_, ?_, ?_, hfresh, ?_⟩
  · intro h
    simp [safe_move, h]
  · intro h
    have hbranch : (safe_move fs src dest).2 =
        dupCandidate dest (freeDupIdx fs dest) := by simp [safe_move, h]
    refine ⟨hbranch, (freeDupIdx_spec fs dest).2.1, (freeDupIdx_spec fs dest).2.2,
      ?_, ?_⟩
    · rw [heq, mem_rename_iff hnd]
      exact Or.inr ⟨h, Ne.symm hne⟩
    · intro hcon
      rw [hcon] at hfresh
      exact hfresh h
  · rw [heq, mem_rename_iff hnd]
    exact Or.inl rfl
  · intro q hq hqs
    rw [heq, mem_rename_iff hnd]
    exact Or.inr ⟨hq, hqs⟩

/-- Witness for C1 at a concrete collision: moving `/f/a.txt` onto the
occupied `/f/DOCS/a.txt`. -/
theorem safe_move_collision_spec_witness :
    ("/f/a.txt" ∈ (["/f/DOCS/a.txt", "/f/a.txt"] : FS)) ∧
    ("/f/a.txt" : String) ≠ "/f/DOCS/a.txt" ∧
    (["/f/DOCS/a.txt", "/f/a.txt"] : FS).Nodup ∧
    (("/f/DOCS/a.txt" : String) ∉ (["/f/DOCS/a.txt", "/f/a.txt"] : FS) →
      (safe_move ["/f/DOCS/a.txt", "/f/a.txt"] "/f/a.txt" "/f/DOCS/a.txt").2 =
        "/f/DOCS/a.txt") ∧
    (("/f/DOCS/a.txt" : String) ∈ (["/f/DOCS/a.txt", "/f/a.txt"] : FS) →
      (safe_move ["/f/DOCS/a.txt", "/f/a.txt"] "/f/a.txt" "/f/DOCS/a.txt").2 =
        dupCandidate "/f/DOCS/a.txt"
          (freeDupIdx ["/f/DOCS/a.txt", "/f/a.txt"] "/f/DOCS/a.txt") ∧
      1 ≤ freeDupIdx ["/f/DOCS/a.txt", "/f/a.txt"] "/f/DOCS/a.txt" ∧
      (∀ j, 1 ≤ j →
        j < freeDupIdx ["/f/DOCS/a.txt", "/f/a.txt"] "/f/DOCS/a.txt" →
        dupCandidate "/f/DOCS/a.txt" j ∈ (["/f/DOCS/a.txt", "/f/a.txt"] : FS)) ∧
      "/f/DOCS/a.txt" ∈
        (safe_move ["/f/DOCS/a.txt", "/f/a.txt"] "/f/a.txt" "/f/DOCS/a.txt").1 ∧
      (safe_move ["/f/DOCS/a.txt", "/f/a.txt"] "/f/a.txt" "/f/DOCS/a.txt").2 ≠
        "/f/DOCS/a.txt") ∧
    (safe_move ["/f/DOCS/a.txt", "/f/a.txt"] "/f/a.txt" "/f/DOCS/a.txt").2 ∈
      (safe_move ["/f/DOCS/a.txt", "/f/a.txt"] "/f/a.txt" "/f/DOCS/a.txt").1 ∧
    (safe_move ["/f/DOCS/a.txt", "/f/a.txt"] "/f/a.txt" "/f/DOCS/a.txt").2 ∉
      (["/f/DOCS/a.txt", "/f/a.txt"] : FS) ∧
    (∀ q ∈ (["/f/DOCS/a.txt", "/f/a.txt"] : FS), q ≠ "/f/a.txt" →
      q ∈ (safe_move ["/f/DOCS/a.txt", "/f/a.txt"] "/f/a.txt" "/f/DOCS/a.txt").1) :=
  ⟨by decide, by decide, by decide,
    safe_move_collision_spec ["/f/DOCS/a.txt", "/f/a.txt"] "/f/a.txt"
      "/f/DOCS/a.txt" (by decide) (by decide) (by decide)⟩

/-! ## Claim C2 -/

/-- Claim C2: for every extension present in the category mapping (whose
stored extensions are lower-case, per the configuration contract),
`find_category` returns the mapped category for the extension in any
letter case; for an extension matching no entry it returns the fallback
`"OTHERS"`; and the result is always either a category of the mapping or
the fallback (the resolver is total). -/
theorem find_category_spec (cats : CatMap) (ext : String) :
    (∀ cat exts e, (cat, exts) ∈ cats → e ∈ exts →
      (∀ ce ∈ cats, ∀ x ∈ ce.2, lowerStr x = x) →
      (∀ ce ∈ cats, lowerStr e ∈ ce.2 → ce.1 = cat) →
      lowerStr ext = lowerStr e →
      find_category cats ext = cat) ∧
    ((∀ ce ∈ cats, lowerStr ext ∉ ce.2) → find_category cats ext = "OTHERS") ∧
    (find_category cats ext = "OTHERS" ∨
      ∃ ce ∈ cats, find_category cats ext = ce.1) := by
  refine ⟨?_, ?_, ?_⟩
  · intro cat exts e hmem he hlow huniq hcase
    have hee : lowerStr e = e := hlow (cat, exts) hmem e he
    have hsome : (cats.find? (fun ce => decide (lowerStr ext ∈ ce.2))).isSome := by
      rw [List.find?_isSome]
      exact ⟨(cat, exts), hmem, by simp [hcase, hee, he]⟩
    obtain ⟨ce, hce⟩ := Option.isSome_iff_exists.mp hsome
    have hpred := List.find?_some hce
    have hcem := List.mem_of_find?_eq_some hce
    simp only [decide_eq_true_eq] at hpred
    have hcat : ce.1 = cat := by
      apply huniq ce hcem
      rw [hcase] at hpred
      exact hpred
    simp only [find_category, hce]
    exact hcat
  · intro hnone
    have : cats.find? (fun ce => decide (lowerStr ext ∈ ce.2)) = none := by
      rw [List.find?_eq_none]
      intro ce hce
      simp [hnone ce hce]
    rw [find_category, this]
  · rw [find_category]
    cases hf : cats.find? (fun ce => decide (lowerStr ext ∈ ce.2)) with
    | none => exact Or.inl rfl
    | some ce => exact Or.inr ⟨ce, List.mem_of_find?_eq_some hf, rfl⟩

/-- Witness for C2: `.TXT` resolves to `DOCS` in a mapping storing
`.txt`, and `.pdf` falls back to `OTHERS`. -/
theorem find_category_spec_witness :
    (("DOCS", [".txt"]) ∈ ([("DOCS", [".txt"]), ("IMAGES", [".jpg"])] : CatMap)) ∧
    (".txt" ∈ [".txt"]) ∧
    find_category [("DOCS", [".txt"]), ("IMAGES", [".jpg"])] ".TXT" = "DOCS" ∧
    find_category [("DOCS", [".txt"]), ("IMAGES", [".jpg"])] ".pdf" = "OTHERS" :=
  ⟨by decide, by decide,
    (find_category_spec [("DOCS", [".txt"]), ("IMAGES", [".jpg"])] ".TXT").1
      "DOCS" [".txt"] ".txt" (by decide) (by decide) (by decide) (by decide)
      (by decide),
    (find_category_spec [("DOCS", [".txt"]), ("IMAGES", [".jpg"])] ".pdf").2.1
      (by decide)⟩

/-! ## Claim C6 -/

/-- Claim C6: undo is single-use.  With no loadable journal (absent or
corrupt, both loaded as `none`) it reports "No undo data found.",
restores nothing and leaves the filesystem untouched; after an undo on
any journal the journal is deleted unconditionally, so a second undo
right after any completed undo reports no undo data and restores
nothing. -/
theorem undo_single_use (fs : FS) (moves : List MoveRec)
    (fails fails' : List Bool) :
    undo_last_operation fs none fails = (fs, none, 0, "No undo data found.") ∧
    (undo_last_operation fs (some moves) fails).2.1 = none ∧
    undo_last_operation (undo_last_operation fs (some moves) fails).1
        (undo_last_operation fs (some moves) fails).2.1 fails' =
      ((undo_last_operation fs (some moves) fails).1, none, 0,
        "No undo data found.") :=
  ⟨rfl, rfl, rfl⟩

/-! ## Claim C5 -/

/-- Claim C5: a record whose recorded `new` path no longer exists is
skipped: it restores nothing, changes nothing, adds no error and the
remaining records are still processed; and the returned message notes
whether any errors occurred (the plain count when the error list is
empty, an additional notice otherwise). -/
theorem undo_skip_missing_spec :
    (∀ (g : FS) (m : MoveRec) (fail : Bool), m.new ∉ g →
      undoRecord g m fail = (g, false, none)) ∧
    (∀ (g : FS) (m : MoveRec) (rest : List MoveRec) (fails : List Bool),
      m.new ∉ g →
      undoGo g (m :: rest) fails = undoGo g rest fails.tail) ∧
    (∀ (g : FS) (moves : List MoveRec) (fails : List Bool),
      (undo_last_operation g (some moves) fails).2.2.2 =
        undoMsg (undoGo g moves.reverse fails).2.1
          (undoGo g moves.reverse fails).2.2) ∧
    (∀ n : Nat, undoMsg n [] = "Restored " ++ decStr n ++ " files.") ∧
    (∀ (n : Nat) (errs : List String), errs ≠ [] →
      undoMsg n errs =
        ("Restored " ++ decStr n ++ " files.") ++
          " Some errors occurred; check error.log.") := by
  refine ⟨?_, ?_, fun g moves fails => rfl, ?_, ?_⟩
  · intro g m fail hmem
    simp [undoRecord, hmem]
  · intro g m rest fails hmem
    simp [undoGo, undoRecord, hmem]
  · intro n
    simp [undoMsg]
  · intro n errs herr
    have : errs.isEmpty = false := by
      cases errs with
      | nil => exact absurd rfl herr
      | cons a l => rfl
    simp [undoMsg, this]

/-- Witness for C5 at concrete inputs: a record whose moved file is gone
is skipped, and messages with and without errors. -/
theorem undo_skip_missing_witness :
    undoRecord ["/f/b.jpg"] ⟨"/f/a.txt", "/f/DOCS/a.txt"⟩ false =
      (["/f/b.jpg"], false, none) ∧
    undoGo ["/f/b.jpg"] [⟨"/f/a.txt", "/f/DOCS/a.txt"⟩] [] =
      undoGo ["/f/b.jpg"] [] ([] : List Bool).tail ∧
    undoMsg 2 ["Failed to restore /f/a.txt"] =
      ("Restored " ++ decStr 2 ++ " files.") ++
        " Some errors occurred; check error.log." :=
  ⟨undo_skip_missing_spec.1 ["/f/b.jpg"] ⟨"/f/a.txt", "/f/DOCS/a.txt"⟩ false
      (by decide),
    undo_skip_missing_spec.2.1 ["/f/b.jpg"] ⟨"/f/a.txt", "/f/DOCS/a.txt"⟩ [] []
      (by decide),
    undo_skip_missing_spec.2.2.2.2 2 ["Failed to restore /f/a.txt"] (by decide)⟩

/-! ### The organize loop invariant -/

/-- The original paths of the files whose move succeeds, in processing
order: exactly the `orig` fields recorded in the journal. -/
def successOrigs (folder : String) (files : List (FileEntry × Bool)) :
    List String :=
  (files.filter (fun fb => !fb.2)).map (fun fb => origPath folder fb.1)

/-- The error descriptions of the files whose move fails, in processing
order. -/
def failMsgs (folder : String) (files : List (FileEntry × Bool)) :
    List String :=
  (files.filter (fun fb => fb.2)).map (fun fb => errMsg folder fb.1)

theorem mem_successOrigs {folder : String} {files : List (FileEntry × Bool)}
    {x : String} (h : x ∈ successOrigs folder files) :
    ∃ fb ∈ files, fb.2 = false ∧ x = origPath folder fb.1 := by
  simp only [successOrigs, List.mem_map, List.mem_filter] at h
  obtain ⟨fb, ⟨hmem, hflag⟩, rfl⟩ := h
  exact ⟨fb, hmem, by simpa using hflag, rfl⟩

/-- Master invariant of the `organize_folder` loop.  Starting from a
duplicate-free filesystem containing the (pairwise distinct) original
paths of all files slated for success, and assuming original paths never
collide with destination or `_dup` candidate paths (true for real
directory listings, whose names contain no `/`), the loop appends one
`MoveRec` per success and one error per failure, every recorded new path
is fresh and of destination/`_dup` shape, the new paths are pairwise
distinct, and the final filesystem is exactly the initial one with the
successful originals replaced by the recorded new paths. -/
theorem organizeGo_spec (cats : CatMap) (folder : String) :
    ∀ (files : List (FileEntry × Bool)) (fs : FS) (moves : List MoveRec)
      (errors : List String),
      fs.Nodup →
      (∀ fb ∈ files, fb.2 = false → origPath folder fb.1 ∈ fs) →
      (successOrigs folder files).Nodup →
      (∀ fb ∈ files, ∀ gb ∈ files, gb.2 = false →
        origPath folder fb.1 ≠ destPath cats folder gb.1 ∧
        ∀ i, origPath folder fb.1 ≠ dupCandidate (destPath cats folder gb.1) i) →
      ∃ newMoves : List MoveRec,
        (organizeGo cats folder files fs moves errors).2.1 = moves ++ newMoves ∧
        newMoves.map MoveRec.orig = successOrigs folder files ∧
        (organizeGo cats folder files fs moves errors).2.2 =
          errors ++ failMsgs folder files ∧
        (organizeGo cats folder files fs moves errors).1.Nodup ∧
        (newMoves.map MoveRec.new).Nodup ∧
        (∀ x ∈ newMoves.map MoveRec.new, x ∉ fs) ∧
        (∀ x ∈ newMoves.map MoveRec.new, ∃ gb ∈ files, gb.2 = false ∧
          (x = destPath cats folder gb.1 ∨
            ∃ i, x = dupCandidate (destPath cats folder gb.1) i)) ∧
        (∀ q, q ∈ (organizeGo cats folder files fs moves errors).1 ↔
          q ∈ newMoves.map MoveRec.new ∨
            (q ∈ fs ∧ q ∉ successOrigs folder files)) := by
  intro files
  induction files with
  | nil =>
    intro fs moves errors hnd _ _ _
    refine ⟨[], by simp [organizeGo], by simp [successOrigs], by simp [organizeGo, failMsgs], by simpa [organizeGo] using hnd, by simp, by simp, by simp, ?_⟩
    intro q
    simp [organizeGo, successOrigs]
  | cons fb rest ih =>
    obtain ⟨f, fail⟩ := fb
    intro fs moves errors hnd horig hdist hsep
    cases fail with
    | true =>
      have hred : organizeGo cats folder ((f, true) :: rest) fs moves errors =
          organizeGo cats folder rest fs moves (errors ++ [errMsg folder f]) := by
        simp [organizeGo]
      have horig' : ∀ gb ∈ rest, gb.2 = false → origPath folder gb.1 ∈ fs :=
        fun gb hgb => horig gb (List.mem_cons_of_mem _ hgb)
      have hdist' : (successOrigs folder rest).Nodup := by
        simpa [successOrigs] using hdist
      have hsep' : ∀ fb ∈ rest, ∀ gb ∈ rest, gb.2 = false →
          origPath folder fb.1 ≠ destPath cats folder gb.1 ∧
          ∀ i, origPath folder fb.1 ≠ dupCandidate (destPath cats folder gb.1) i :=
        fun fb hfb gb hgb => hsep fb (List.mem_cons_of_mem _ hfb) gb
          (List.mem_cons_of_mem _ hgb)
      obtain ⟨nm, h1, h2, h3, h4, h5, h6, h7, h8⟩ :=
        ih fs moves (errors ++ [errMsg folder f]) hnd horig' hdist' hsep'
      refine ⟨nm, ?_, ?_, ?_, ?_, h5, h6, ?_, ?_⟩
      · rw [hred, h1]
      · simpa [successOrigs] using h2
      · rw [hred, h3]
        simp [failMsgs]
      · rw [hred]
        exact h4
      · intro x hx
        obtain ⟨gb, hgb, hflag, hshape⟩ := h7 x hx
        exact ⟨gb, List.mem_cons_of_mem _ hgb, hflag, hshape⟩
      · intro q
        rw [hred, h8 q]
        simp [successOrigs]
    | false =>
      have hfmem : (f, false) ∈ (f, false) :: rest := List.mem_cons_self _ _
      have hofs : origPath folder f ∈ fs := horig (f, false) hfmem rfl
      rcases hsm : safe_move fs (origPath folder f) (destPath cats folder f)
        with ⟨fs₁, new⟩
      have hfresh : new ∉ fs := by
        have h := safe_move_fresh fs (origPath folder f) (destPath cats folder f)
        rwa [hsm] at h
      have heq : fs₁ = rename fs (origPath folder f) new := by
        have h := safe_move_eq fs (origPath folder f) (destPath cats folder f)
        rwa [hsm] at h
      have hshapef : new = destPath cats folder f ∨
          ∃ i, new = dupCandidate (destPath cats folder f) i := by
        have h := safe_move_shape fs (origPath folder f) (destPath cats folder f)
        rwa [hsm] at h
      have hmem₁ : ∀ q, q ∈ fs₁ ↔ q = new ∨ (q ∈ fs ∧ q ≠ origPath folder f) := by
        intro q
        rw [heq]
        exact mem_rename_iff hnd _ _ q
      have hnd₁ : fs₁.Nodup := by
        rw [heq]
        exact rename_nodup hnd hfresh
      have hred : organizeGo cats folder ((f, false) :: rest) fs moves errors =
          organizeGo cats folder rest fs₁
            (moves ++ [⟨origPath folder f, new⟩]) errors := by
        simp [organizeGo, hsm]
      have hSO : successOrigs folder ((f, false) :: rest) =
          origPath folder f :: successOrigs folder rest := by
        simp [successOrigs]
      rw [hSO] at hdist
      have hnotinSR : origPath folder f ∉ successOrigs folder rest :=
        (List.nodup_cons.mp hdist).1
      have hdist' : (successOrigs folder rest).Nodup :=
        (List.nodup_cons.mp hdist).2
      have hSRfs : ∀ x ∈ successOrigs folder rest, x ∈ fs := by
        intro x hx
        obtain ⟨gb, hgb, hflag, rfl⟩ := mem_successOrigs hx
        exact horig gb (List.mem_cons_of_mem _ hgb) hflag
      have horig' : ∀ gb ∈ rest, gb.2 = false → origPath folder gb.1 ∈ fs₁ := by
        intro gb hgb hflag
        rw [hmem₁]
        refine Or.inr ⟨horig gb (List.mem_cons_of_mem _ hgb) hflag, ?_⟩
        intro hcon
        apply hnotinSR
        rw [← hcon]
        simp only [successOrigs, List.mem_map, List.mem_filter]
        exact ⟨gb, ⟨hgb, by simp [hflag]⟩, rfl⟩
      have hsep' : ∀ fb ∈ rest, ∀ gb ∈ rest, gb.2 = false →
          origPath folder fb.1 ≠ destPath cats folder gb.1 ∧
          ∀ i, origPath folder fb.1 ≠ dupCandidate (destPath cats folder gb.1) i :=
        fun fb hfb gb hgb => hsep fb (List.mem_cons_of_mem _ hfb) gb
          (List.mem_cons_of_mem _ hgb)
      obtain ⟨nm, h1, h2, h3, h4, h5, h6, h7, h8⟩ :=
        ih fs₁ (moves ++ [⟨origPath folder f, new⟩]) errors hnd₁ horig' hdist' hsep'
      refine ⟨⟨origPath folder f, new⟩ :: nm, ?_, ?_, ?_, ?_, ?_, ?_, ?_, ?_⟩
      · rw [hred, h1]
        simp
      · rw [hSO]
        simpa using h2
      · rw [hred, h3]
        simp [failMsgs]
      · rw [hred]
        exact h4
      · simp only [List.map_cons, List.nodup_cons]
        refine ⟨?_, h5⟩
        intro hcon
        exact h6 new hcon ((hmem₁ new).mpr (Or.inl rfl))
      · intro x hx
        simp only [List.map_cons, List.mem_cons] at hx
        rcases hx with rfl | hx
        · exact hfresh
        · intro hxfs
          apply h6 x hx
          rw [hmem₁]
          refine Or.inr ⟨hxfs, ?_⟩
          intro hxo
          obtain ⟨gb, hgb, hflag, hshape⟩ := h7 x hx
          have hsepx := hsep (f, false) hfmem gb (List.mem_cons_of_mem _ hgb)
            hflag
          rcases hshape with hd | ⟨i, hdup⟩
          · exact hsepx.1 (by rw [← hxo, hd])
          · exact hsepx.2 i (by rw [← hxo, hdup])
      · intro x hx
        simp only [List.map_cons, List.mem_cons] at hx
        rcases hx with rfl | hx
        · exact ⟨(f, false), hfmem, rfl, hshapef⟩
        · obtain ⟨gb, hgb, hflag, hshape⟩ := h7 x hx
          exact ⟨gb, List.mem_cons_of_mem _ hgb, hflag, hshape⟩
      · intro q
        rw [hred, h8 q, hSO]
        constructor
        · rintro (hqN | ⟨hqfs₁, hqSR⟩)
          · exact Or.inl (by simp [hqN])
          · rcases (hmem₁ q).mp hqfs₁ with hqn | ⟨hqfs, hqo⟩
            · exact Or.inl (by simp [hqn])
            · exact Or.inr ⟨hqfs, by simp [hqo, hqSR]⟩
        · rintro (hqN | ⟨hqfs, hqcons⟩)
          · simp only [List.map_cons, List.mem_cons] at hqN
            rcases hqN with hqn | hqN
            · refine Or.inr ⟨(hmem₁ q).mpr (Or.inl hqn), ?_⟩
              intro hqSR
              rw [hqn] at hqSR
              exact hfresh (hSRfs new hqSR)
            · exact Or.inl hqN
          · simp only [List.mem_cons, not_or] at hqcons
            exact Or.inr ⟨(hmem₁ q).mpr (Or.inr ⟨hqfs, hqcons.1⟩), hqcons.2⟩

/-! ### Slash-freeness: original paths never collide with destination
or candidate paths.  Real directory entries contain no `/` in their
names, which separates `folder/name` from `folder/category/...`. -/

theorem find_category_shape (cats : CatMap) (ext : String) :
    find_category cats ext = "OTHERS" ∨
      ∃ ce ∈ cats, find_category cats ext = ce.1 := by
  rw [find_category]
  cases hf : cats.find? (fun ce => decide (lowerStr ext ∈ ce.2)) with
  | none => exact Or.inl rfl
  | some ce => exact Or.inr ⟨ce, List.mem_of_find?_eq_some hf, rfl⟩

theorem data_concat (d n : String) :
    (d ++ "/" ++ n).data = d.data ++ '/' :: n.data := by
  simp [String.data_append]

theorem pathName_pathDir_concat (d n : String) (hn : '/' ∉ n.data) :
    pathName (d ++ "/" ++ n) = n ∧ pathDir (d ++ "/" ++ n) = d := by
  have hdata : (d ++ "/" ++ n).data.reverse =
      n.data.reverse ++ '/' :: d.data.reverse := by
    rw [data_concat, List.reverse_append, List.reverse_cons]
    simp
  have hpos : ∀ a ∈ n.data.reverse, (decide (a ≠ '/')) = true := by
    intro a ha
    simp only [decide_eq_true_eq]
    intro hcon
    rw [hcon] at ha
    exact hn (List.mem_reverse.mp ha)
  constructor
  · apply String.ext
    show ((d ++ "/" ++ n).data.reverse.takeWhile _).reverse = n.data
    rw [hdata, List.takeWhile_append_of_pos hpos]
    simp [List.takeWhile_cons]
  · apply String.ext
    show (((d ++ "/" ++ n).data.reverse.dropWhile _).drop 1).reverse = d.data
    rw [hdata, List.dropWhile_append_of_pos hpos]
    simp [List.dropWhile_cons]

/-- A name without `/` is never equal to anything of the form
`category/rest`, after the common `folder/` prefix. -/
theorem concat_ne_nested (folder n c x : String) (hn : '/' ∉ n.data) :
    folder ++ "/" ++ n ≠ (folder ++ "/" ++ c) ++ "/" ++ x := by
  intro hcon
  have hdata := congrArg String.data hcon
  rw [data_concat, data_concat, data_concat, List.append_assoc] at hdata
  have := List.append_cancel_left hdata
  have hcons : n.data = c.data ++ '/' :: x.data := by
    simpa using this
  apply hn
  rw [hcons]
  simp

theorem origPath_eq_concat (folder : String) (f : FileEntry) :
    origPath folder f = folder ++ "/" ++ (f.stem ++ f.suf) := by
  simp [origPath, String.append_assoc]

theorem destPath_eq_concat (cats : CatMap) (folder : String) (f : FileEntry) :
    destPath cats folder f =
      (folder ++ "/" ++ find_category cats f.suf) ++ "/" ++ (f.stem ++ f.suf) := by
  simp [destPath, String.append_assoc]

/-- Separation: with slash-free file names and category names, an
original path equals no destination path and no `_dup` candidate. -/
theorem sep_of_noslash (cats : CatMap) (folder : String)
    (files : List (FileEntry × Bool))
    (hns : ∀ fb ∈ files, '/' ∉ (fb.1.stem ++ fb.1.suf).data)
    (hkeys : ∀ ce ∈ cats, '/' ∉ ce.1.data) :
    ∀ fb ∈ files, ∀ gb ∈ files, gb.2 = false →
      origPath folder fb.1 ≠ destPath cats folder gb.1 ∧
      ∀ i, origPath folder fb.1 ≠ dupCandidate (destPath cats folder gb.1) i := by
  intro fb hfb gb hgb _
  have hnf := hns fb hfb
  have hng := hns gb hgb
  have hcat : '/' ∉ (find_category cats gb.1.suf).data := by
    rcases find_category_shape cats gb.1.suf with h | ⟨ce, hce, h⟩
    · rw [h]
      decide
    · rw [h]
      exact hkeys ce hce
  have hdir : pathDir (destPath cats folder gb.1) =
      folder ++ "/" ++ find_category cats gb.1.suf := by
    rw [destPath_eq_concat]
    exact (pathName_pathDir_concat _ _ hng).2
  constructor
  · rw [origPath_eq_concat, destPath_eq_concat]
    exact concat_ne_nested folder _ _ _ hnf
  · intro i
    rw [origPath_eq_concat]
    show folder ++ "/" ++ (fb.1.stem ++ fb.1.suf) ≠
      pathDir (destPath cats folder gb.1) ++ "/" ++ pathStem (destPath cats folder gb.1)
        ++ "_dup" ++ decStr i ++ pathSuffix (destPath cats folder gb.1)
    rw [hdir]
    have hassoc : folder ++ "/" ++ find_category cats gb.1.suf ++ "/" ++
        pathStem (destPath cats folder gb.1) ++ "_dup" ++ decStr i ++
        pathSuffix (destPath cats folder gb.1) =
      (folder ++ "/" ++ find_category cats gb.1.suf) ++ "/" ++
        (pathStem (destPath cats folder gb.1) ++ "_dup" ++ decStr i ++
          pathSuffix (destPath cats folder gb.1)) := by
      simp [String.append_assoc]
    rw [hassoc]
    exact concat_ne_nested folder _ _ _ hnf

theorem successOrigs_nodup {folder : String} {files : List (FileEntry × Bool)}
    (hnames : (files.map (fun fb => origPath folder fb.1)).Nodup) :
    (successOrigs folder files).Nodup :=
  ((List.filter_sublist files).map _).nodup hnames

theorem failed_not_in_successOrigs {folder : String}
    {files : List (FileEntry × Bool)}
    (hnames : (files.map (fun fb => origPath folder fb.1)).Nodup) :
    ∀ fb ∈ files, fb.2 = true →
      origPath folder fb.1 ∉ successOrigs folder files := by
  intro fb hfb hflag hmem
  obtain ⟨gb, hgb, hgflag, heq⟩ := mem_successOrigs hmem
  have hfg : fb = gb := List.inj_on_of_nodup_map hnames hfb hgb heq
  rw [hfg, hgflag] at hflag
  exact Bool.false_ne_true hflag

/-! ## Claim C3 -/

/-- Claim C3: `organize_folder` processes every immediate file child;
each failing move appends exactly its error description with the file
left in place and processing continuing with the rest; the journal is
persisted containing every successful record iff at least one move
succeeded, and is left untouched when none did; and the returned count
and error list are the number of successes and the per-file errors. -/
theorem organize_folder_spec (cats : CatMap) (folder : String)
    (files : List (FileEntry × Bool)) (fs : FS)
    (journal : Option (List MoveRec))
    (hnd : fs.Nodup)
    (horig : ∀ fb ∈ files, fb.2 = false → origPath folder fb.1 ∈ fs)
    (hnames : (files.map (fun fb => origPath folder fb.1)).Nodup)
    (hns : ∀ fb ∈ files, '/' ∉ (fb.1.stem ++ fb.1.suf).data)
    (hkeys : ∀ ce ∈ cats, '/' ∉ ce.1.data) :
    (organize_folder cats folder files fs journal).2.2.1 =
      (successOrigs folder files).length ∧
    (organize_folder cats folder files fs journal).2.2.2 =
      failMsgs folder files ∧
    (∀ fb ∈ files, fb.2 = true → origPath folder fb.1 ∈ fs →
      origPath folder fb.1 ∈ (organize_folder cats folder files fs journal).1) ∧
    (successOrigs folder files = [] →
      (organize_folder cats folder files fs journal).2.1 = journal) ∧
    (successOrigs folder files ≠ [] →
      ∃ ms, (organize_folder cats folder files fs journal).2.1 = some ms ∧
        ms.map MoveRec.orig = successOrigs folder files ∧
        ms.length = (successOrigs folder files).length) := by
  have hsep := sep_of_noslash cats folder files hns hkeys
  have hdist := successOrigs_nodup hnames
  obtain ⟨nm, h1, h2, h3, h4, h5, h6, h7, h8⟩ :=
    organizeGo_spec cats folder files fs [] [] hnd horig hdist hsep
  simp only [List.nil_append] at h1 h3
  have hof1 : (organize_folder cats folder files fs journal).1 =
      (organizeGo cats folder files fs [] []).1 := rfl
  have hof2 : (organize_folder cats folder files fs journal).2.1 =
      if (organizeGo cats folder files fs [] []).2.1.isEmpty then journal
      else some (organizeGo cats folder files fs [] []).2.1 := rfl
  have hof3 : (organize_folder cats folder files fs journal).2.2.1 =
      (organizeGo cats folder files fs [] []).2.1.length := rfl
  have hof4 : (organize_folder cats folder files fs journal).2.2.2 =
      (organizeGo cats folder files fs [] []).2.2 := rfl
  have hlen : nm.length = (successOrigs folder files).length := by
    rw [← h2, List.length_map]
  refine ⟨?_, ?_, ?_, ?_, ?_⟩
  · rw [hof3, h1, hlen]
  · rw [hof4, h3]
  · intro fb hfb hflag hmem
    rw [hof1]
    exact (h8 _).mpr (Or.inr ⟨hmem, failed_not_in_successOrigs hnames fb hfb hflag⟩)
  · intro hSO
    rw [hof2, h1]
    have hnm : nm = [] := by
      have := h2
      rw [hSO] at this
      exact List.map_eq_nil_iff.mp this
    simp [hnm]
  · intro hne
    rw [hof2, h1]
    have hnm : ¬ nm.isEmpty := by
      intro hcon
      apply hne
      rw [← h2, List.isEmpty_iff.mp hcon]
      rfl
    rw [if_neg hnm]
    exact ⟨nm, rfl, h2, hlen⟩

/-- Concrete example mapping, directory listing and filesystem used by
the witnesses: `a.txt` and `c.xyz` move, `b.jpg` fails. -/
def exCats : CatMap := [("DOCS", [".txt"]), ("IMAGES", [".jpg"])]

def exFiles : List (FileEntry × Bool) :=
  [(⟨"a", ".txt"⟩, false), (⟨"b", ".jpg"⟩, true), (⟨"c", ".xyz"⟩, false)]

def exFS : FS := ["/f/a.txt", "/f/b.jpg", "/f/c.xyz"]

/-- Witness for C3 on a three-file directory (one failing move). -/
theorem organize_folder_spec_witness :
    exFS.Nodup ∧
    (∀ fb ∈ exFiles, fb.2 = false → origPath "/f" fb.1 ∈ exFS) ∧
    (exFiles.map (fun fb => origPath "/f" fb.1)).Nodup ∧
    (∀ fb ∈ exFiles, '/' ∉ (fb.1.stem ++ fb.1.suf).data) ∧
    (∀ ce ∈ exCats, '/' ∉ ce.1.data) ∧
    (organize_folder exCats "/f" exFiles exFS none).2.2.1 =
      (successOrigs "/f" exFiles).length ∧
    (organize_folder exCats "/f" exFiles exFS none).2.2.2 =
      failMsgs "/f" exFiles ∧
    (∀ fb ∈ exFiles, fb.2 = true → origPath "/f" fb.1 ∈ exFS →
      origPath "/f" fb.1 ∈ (organize_folder exCats "/f" exFiles exFS none).1) ∧
    (successOrigs "/f" exFiles = [] →
      (organize_folder exCats "/f" exFiles exFS none).2.1 = none) ∧
    (successOrigs "/f" exFiles ≠ [] →
      ∃ ms, (organize_folder exCats "/f" exFiles exFS none).2.1 = some ms ∧
        ms.map MoveRec.orig = successOrigs "/f" exFiles ∧
        ms.length = (successOrigs "/f" exFiles).length) := by
  refine ⟨by decide, by decide, by decide, by decide, by decide, ?_⟩
  exact organize_folder_spec exCats "/f" exFiles exFS none (by decide)
    (by decide) (by decide) (by decide) (by decide)

/-! ### The undo loop on an untouched post-organize state -/

/-- If the current filesystem is the original one with the recorded
original paths replaced by the recorded (fresh, pairwise-distinct) new
paths, then processing the records in reverse restores every one of
them directly to its original path, with no errors, and the resulting
filesystem has exactly the original members. -/
theorem undoGo_restore_spec :
    ∀ (ms : List MoveRec) (fs fsOrg : FS),
      fsOrg.Nodup →
      (∀ q, q ∈ fsOrg ↔ q ∈ ms.map MoveRec.new ∨
        (q ∈ fs ∧ q ∉ ms.map MoveRec.orig)) →
      (ms.map MoveRec.orig).Nodup →
      (∀ x ∈ ms.map MoveRec.orig, x ∈ fs) →
      (ms.map MoveRec.new).Nodup →
      (∀ x ∈ ms.map MoveRec.new, x ∉ fs) →
      (undoGo fsOrg ms.reverse []).1.Nodup ∧
      (∀ q, q ∈ (undoGo fsOrg ms.reverse []).1 ↔ q ∈ fs) ∧
      (undoGo fsOrg ms.reverse []).2.1 = ms.length ∧
      (undoGo fsOrg ms.reverse []).2.2 = [] := by
  intro ms
  induction ms using List.reverseRecOn with
  | nil =>
    intro fs fsOrg hnd hmem _ _ _ _
    refine ⟨hnd, ?_, rfl, rfl⟩
    intro q
    have := hmem q
    simpa using this
  | append_singleton ms₀ m ih =>
    intro fs fsOrg hnd hmem hnodupO horigfs hnodupN hnewfs
    have hrev : (ms₀ ++ [m]).reverse = m :: ms₀.reverse := by simp
    have hN : (ms₀ ++ [m]).map MoveRec.new =
        ms₀.map MoveRec.new ++ [m.new] := by simp
    have hO : (ms₀ ++ [m]).map MoveRec.orig =
        ms₀.map MoveRec.orig ++ [m.orig] := by simp
    rw [hN] at hnodupN hnewfs
    rw [hO] at hnodupO horigfs
    rw [hN, hO] at hmem
    have hnewOrg : m.new ∈ fsOrg := by
      rw [hmem]
      exact Or.inl (by simp)
    have hmofs : m.orig ∈ fs := horigfs m.orig (by simp)
    have hmnotnew : ∀ y ∈ ms₀.map MoveRec.new ++ [m.new], m.orig ≠ y := by
      intro y hy hcon
      exact hnewfs y hy (hcon ▸ hmofs)
    have horigOrg : m.orig ∉ fsOrg := by
      rw [hmem]
      rintro (hin | ⟨-, hno⟩)
      · exact hmnotnew m.orig hin rfl
      · exact hno (by simp)
    have hstep : undoRecord fsOrg m false =
        (rename fsOrg m.new m.orig, true, none) := by
      simp [undoRecord, hnewOrg, horigOrg]
    have hnd₁ : (rename fsOrg m.new m.orig).Nodup :=
      rename_nodup hnd horigOrg
    have hmem₁ : ∀ q, q ∈ rename fsOrg m.new m.orig ↔
        q ∈ ms₀.map MoveRec.new ∨ (q ∈ fs ∧ q ∉ ms₀.map MoveRec.orig) := by
      intro q
      rw [mem_rename_iff hnd, hmem]
      constructor
      · rintro (rfl | ⟨hin | ⟨hqfs, hqO⟩, hqnew⟩)
        · refine Or.inr ⟨hmofs, ?_⟩
          obtain ⟨-, -, hdisj⟩ := List.nodup_append.mp hnodupO
          intro hcon
          exact hdisj hcon (by simp)
        · rcases List.mem_append.mp hin with h0 | h1
          · exact Or.inl h0
          · simp only [List.mem_singleton] at h1
            exact absurd h1 hqnew
        · exact Or.inr ⟨hqfs, fun hcon => hqO (List.mem_append.mpr (Or.inl hcon))⟩
      · rintro (hq0 | ⟨hqfs, hqO0⟩)
        · refine Or.inr ⟨Or.inl (List.mem_append.mpr (Or.inl hq0)), ?_⟩
          obtain ⟨-, -, hdisj⟩ := List.nodup_append.mp hnodupN
          exact fun hcon => hdisj (hcon ▸ hq0) (by simp)
        · by_cases hqm : q = m.orig
          · exact Or.inl hqm
          · refine Or.inr ⟨Or.inr ⟨hqfs, ?_⟩, ?_⟩
            · intro hcon
              rcases List.mem_append.mp hcon with h0 | h1
              · exact hqO0 h0
              · simp only [List.mem_singleton] at h1
                exact hqm h1
            · intro hcon
              exact hnewfs q (List.mem_append.mpr (Or.inr (by simp [hcon]))) hqfs
    have hnodupO₀ : (ms₀.map MoveRec.orig).Nodup :=
      (List.nodup_append.mp hnodupO).1
    have hnodupN₀ : (ms₀.map MoveRec.new).Nodup :=
      (List.nodup_append.mp hnodupN).1
    have horigfs₀ : ∀ x ∈ ms₀.map MoveRec.orig, x ∈ fs :=
      fun x hx => horigfs x (List.mem_append.mpr (Or.inl hx))
    have hnewfs₀ : ∀ x ∈ ms₀.map MoveRec.new, x ∉ fs :=
      fun x hx => hnewfs x (List.mem_append.mpr (Or.inl hx))
    obtain ⟨ih1, ih2, ih3, ih4⟩ :=
      ih fs (rename fsOrg m.new m.orig) hnd₁ hmem₁ hnodupO₀ horigfs₀
        hnodupN₀ hnewfs₀
    have hgo : undoGo fsOrg ((ms₀ ++ [m]).reverse) [] =
        ((undoGo (rename fsOrg m.new m.orig) ms₀.reverse []).1,
          1 + (undoGo (rename fsOrg m.new m.orig) ms₀.reverse []).2.1,
          (undoGo (rename fsOrg m.new m.orig) ms₀.reverse []).2.2) := by
      rw [hrev]
      simp [undoGo, hstep]
    rw [hgo]
    refine ⟨ih1, ih2, ?_, ih4⟩
    rw [ih3]
    simp [Nat.add_comm]

/-! ## Claim C4 -/

/-- Claim C4: `organize_folder` followed immediately by
`undo_last_operation` is a round trip: every record is processed in
reverse, every successfully moved file (still at its recorded new path,
with its original slot free) is restored to its original path, and the
filesystem ends as a permutation of the initial one; no errors, the
journal is consumed, and the message reports the full count.  Moreover,
whenever a file does occupy the original path at restore time, the undo
body restores to the first unused `{stem}_restored{N}{suffix}` name
instead (N counted from 1), so no data is lost. -/
theorem organize_undo_round_trip (cats : CatMap) (folder : String)
    (files : List (FileEntry × Bool)) (fs : FS)
    (journal : Option (List MoveRec))
    (hnd : fs.Nodup)
    (horig : ∀ fb ∈ files, fb.2 = false → origPath folder fb.1 ∈ fs)
    (hnames : (files.map (fun fb => origPath folder fb.1)).Nodup)
    (hns : ∀ fb ∈ files, '/' ∉ (fb.1.stem ++ fb.1.suf).data)
    (hkeys : ∀ ce ∈ cats, '/' ∉ ce.1.data)
    (hsucc : successOrigs folder files ≠ []) :
    ((undo_last_operation (organize_folder cats folder files fs journal).1
        (organize_folder cats folder files fs journal).2.1 []).1.Perm fs) ∧
    (∀ x ∈ successOrigs folder files,
      x ∈ (undo_last_operation (organize_folder cats folder files fs journal).1
        (organize_folder cats folder files fs journal).2.1 []).1) ∧
    (undo_last_operation (organize_folder cats folder files fs journal).1
        (organize_folder cats folder files fs journal).2.1 []).2.1 = none ∧
    (undo_last_operation (organize_folder cats folder files fs journal).1
        (organize_folder cats folder files fs journal).2.1 []).2.2.1 =
      (successOrigs folder files).length ∧
    (undo_last_operation (organize_folder cats folder files fs journal).1
        (organize_folder cats folder files fs journal).2.1 []).2.2.2 =
      "Restored " ++ decStr (successOrigs folder files).length ++ " files." ∧
    (∀ (g : FS) (m : MoveRec), m.new ∈ g → m.orig ∈ g →
      undoRecord g m false =
        (rename g m.new (restoredCandidate m.orig (freeRestoredIdx g m.orig)),
          true, none) ∧
      restoredCandidate m.orig (freeRestoredIdx g m.orig) ∉ g ∧
      1 ≤ freeRestoredIdx g m.orig ∧
      ∀ j, 1 ≤ j → j < freeRestoredIdx g m.orig →
        restoredCandidate m.orig j ∈ g) := by
  have hsep := sep_of_noslash cats folder files hns hkeys
  have hdist := successOrigs_nodup hnames
  obtain ⟨nm, h1, h2, h3, h4, h5, h6, h7, h8⟩ :=
    organizeGo_spec cats folder files fs [] [] hnd horig hdist hsep
  simp only [List.nil_append] at h1 h3
  have hnm : ¬ (organizeGo cats folder files fs [] []).2.1.isEmpty := by
    rw [h1]
    intro hcon
    apply hsucc
    rw [← h2, List.isEmpty_iff.mp hcon]
    rfl
  have hj : (organize_folder cats folder files fs journal).2.1 = some nm := by
    show (if (organizeGo cats folder files fs [] []).2.1.isEmpty then journal
      else some (organizeGo cats folder files fs [] []).2.1) = some nm
    rw [if_neg hnm, h1]
  have hfs1 : (organize_folder cats folder files fs journal).1 =
      (organizeGo cats folder files fs [] []).1 := rfl
  have hu : undo_last_operation (organize_folder cats folder files fs journal).1
      (organize_folder cats folder files fs journal).2.1 [] =
      ((undoGo (organizeGo cats folder files fs [] []).1 nm.reverse []).1, none,
        (undoGo (organizeGo cats folder files fs [] []).1 nm.reverse []).2.1,
        undoMsg
          (undoGo (organizeGo cats folder files fs [] []).1 nm.reverse []).2.1
          (undoGo (organizeGo cats folder files fs [] []).1 nm.reverse []).2.2) := by
    rw [hj, hfs1]
    rfl
  have hOfs : ∀ x ∈ nm.map MoveRec.orig, x ∈ fs := by
    intro x hx
    rw [h2] at hx
    obtain ⟨gb, hgb, hflag, rfl⟩ := mem_successOrigs hx
    exact horig gb hgb hflag
  have hmem : ∀ q, q ∈ (organizeGo cats folder files fs [] []).1 ↔
      q ∈ nm.map MoveRec.new ∨ (q ∈ fs ∧ q ∉ nm.map MoveRec.orig) := by
    intro q
    rw [h8 q, h2]
  obtain ⟨u1, u2, u3, u4⟩ :=
    undoGo_restore_spec nm fs (organizeGo cats folder files fs [] []).1 h4 hmem
      (h2 ▸ hdist) hOfs h5 h6
  have hlen : nm.length = (successOrigs folder files).length := by
    rw [← h2, List.length_map]
  refine ⟨?_, ?_, ?_, ?_, ?_, ?_⟩
  · rw [hu]
    exact (List.perm_ext_iff_of_nodup u1 hnd).mpr u2
  · intro x hx
    rw [hu]
    apply (u2 x).mpr
    obtain ⟨gb, hgb, hflag, rfl⟩ := mem_successOrigs hx
    exact horig gb hgb hflag
  · rw [hu]
  · rw [hu]
    show (undoGo (organizeGo cats folder files fs [] []).1 nm.reverse []).2.1 =
      (successOrigs folder files).length
    rw [u3, hlen]
  · rw [hu]
    show undoMsg
        (undoGo (organizeGo cats folder files fs [] []).1 nm.reverse []).2.1
        (undoGo (organizeGo cats folder files fs [] []).1 nm.reverse []).2.2 =
      "Restored " ++ decStr (successOrigs folder files).length ++ " files."
    rw [u3, u4, hlen]
    simp [undoMsg]
  · intro g m hnew horg
    have hr := freeRestoredIdx_spec g m.orig
    exact ⟨by simp [undoRecord, hnew, horg], hr.1, hr.2.1, hr.2.2⟩

/-- Witness for C4: the three-file example organizes and then undoes
back to the original listing; and a concrete collision restore uses
`a_restored1.txt`. -/
theorem organize_undo_round_trip_witness :
    exFS.Nodup ∧
    (∀ fb ∈ exFiles, fb.2 = false → origPath "/f" fb.1 ∈ exFS) ∧
    (exFiles.map (fun fb => origPath "/f" fb.1)).Nodup ∧
    (∀ fb ∈ exFiles, '/' ∉ (fb.1.stem ++ fb.1.suf).data) ∧
    (∀ ce ∈ exCats, '/' ∉ ce.1.data) ∧
    successOrigs "/f" exFiles ≠ [] ∧
    ((undo_last_operation (organize_folder exCats "/f" exFiles exFS none).1
        (organize_folder exCats "/f" exFiles exFS none).2.1 []).1.Perm exFS) ∧
    (undo_last_operation (organize_folder exCats "/f" exFiles exFS none).1
        (organize_folder exCats "/f" exFiles exFS none).2.1 []).2.1 = none ∧
    (∀ (g : FS) (m : MoveRec), m.new ∈ g → m.orig ∈ g →
      undoRecord g m false =
        (rename g m.new (restoredCandidate m.orig (freeRestoredIdx g m.orig)),
          true, none) ∧
      restoredCandidate m.orig (freeRestoredIdx g m.orig) ∉ g ∧
      1 ≤ freeRestoredIdx g m.orig ∧
      ∀ j, 1 ≤ j → j < freeRestoredIdx g m.orig →
        restoredCandidate m.orig j ∈ g) := by
  have h := organize_undo_round_trip exCats "/f" exFiles exFS none (by decide)
    (by decide) (by decide) (by decide) (by decide) (by decide)
  exact ⟨by decide, by decide, by decide, by decide, by decide, by decide,
    h.1, h.2.2.1, h.2.2.2.2.2⟩

/-! ### Duplicate-detector invariant -/

theorem lookup_aset_self {α : Type} (l : List (String × α)) (k : String) (v : α) :
    List.lookup k (aset l k v) = some v := by
  induction l with
  | nil => simp [aset]
  | cons kv rest ih =>
    obtain ⟨k', v'⟩ := kv
    by_cases h : k' = k
    · subst h
      simp [aset]
    · rw [aset, if_neg h, List.lookup_cons]
      have hb : (k == k') = false := by
        simp [Ne.symm h]
      rw [hb]
      exact ih

theorem lookup_aset_ne {α : Type} (l : List (String × α)) (k k' : String) (v : α)
    (h : k' ≠ k) : List.lookup k' (aset l k v) = List.lookup k' l := by
  induction l with
  | nil =>
    have hb : (k' == k) = false := by simp [h]
    simp [aset, List.lookup_cons, hb]
  | cons kv rest ih =>
    obtain ⟨k'', v''⟩ := kv
    by_cases hk : k'' = k
    · subst hk
      have hb : (k' == k'') = false := by simp [h]
      simp [aset, List.lookup_cons, hb]
    · rw [aset, if_neg hk, List.lookup_cons, List.lookup_cons, ih]

/-- All members of a directory scan sharing content hash `h`, in
discovery order. -/
def hashGroup (files : List (String × Option String)) (h : String) :
    List String :=
  (files.filter (fun q => decide (q.2 = some h))).map Prod.fst

theorem hashGroup_append_one (pre : List (String × Option String))
    (e : String × Option String) (h : String) :
    hashGroup (pre ++ [e]) h =
      hashGroup pre h ++ if e.2 = some h then [e.1] else [] := by
  by_cases hc : e.2 = some h <;> simp [hashGroup, List.filter_append, hc]

theorem hashGroup_subset_fst (pre : List (String × Option String)) (h : String) :
    ∀ x ∈ hashGroup pre h, x ∈ pre.map Prod.fst := by
  intro x hx
  simp only [hashGroup, List.mem_map, List.mem_filter] at hx
  obtain ⟨q, ⟨hq, -⟩, rfl⟩ := hx
  exact List.mem_map.mpr ⟨q, hq, rfl⟩

/-- Loop invariant of `find_duplicates`: after processing `pre`,
`map_hash` holds the first occurrence of each (nonempty) hash and `dup`
holds exactly the hashes seen at least twice, each mapped to all its
files in discovery order; processing the remainder preserves this. -/
theorem dupGo_spec :
    ∀ (rest pre : List (String × Option String))
      (mh : List (String × String)) (dup : List (String × List String)),
      ((pre ++ rest).map Prod.fst).Nodup →
      (∀ h, h ≠ "" → List.lookup h mh = (hashGroup pre h).head?) →
      (∀ h, h ≠ "" → List.lookup h dup =
        if 2 ≤ (hashGroup pre h).length then some (hashGroup pre h) else none) →
      List.lookup "" dup = none →
      (∀ h, h ≠ "" →
        List.lookup h (dupGo rest mh dup) =
          if 2 ≤ (hashGroup (pre ++ rest) h).length
          then some (hashGroup (pre ++ rest) h) else none) ∧
      List.lookup "" (dupGo rest mh dup) = none := by
  intro rest
  induction rest with
  | nil =>
    intro pre mh dup _ _ hdup hempty
    refine ⟨?_, ?_⟩ <;> simp only [dupGo]
    · intro h hne
      simpa using hdup h hne
    · exact hempty
  | cons e rest' ih =>
    intro pre mh dup hnodup hmh hdup hempty
    obtain ⟨p, oh⟩ := e
    have hassoc : pre ++ (p, oh) :: rest' = (pre ++ [(p, oh)]) ++ rest' := by
      simp
    rw [hassoc] at hnodup ⊢
    -- the skip cases: hash `none` or empty-string hash
    have hskip : ∀ (hskipcase : dupStep mh dup p oh = (mh, dup)),
        (oh = none ∨ oh = some "") →
        (∀ h, h ≠ "" →
          List.lookup h (dupGo ((p, oh) :: rest') mh dup) =
            if 2 ≤ (hashGroup ((pre ++ [(p, oh)]) ++ rest') h).length
            then some (hashGroup ((pre ++ [(p, oh)]) ++ rest') h) else none) ∧
        List.lookup "" (dupGo ((p, oh) :: rest') mh dup) = none := by
      intro hstep hcase
      have hgr : ∀ h, h ≠ "" →
          hashGroup (pre ++ [(p, oh)]) h = hashGroup pre h := by
        intro h hne
        rw [hashGroup_append_one]
        rcases hcase with rfl | rfl
        · simp
        · simp only []
          have : (some "" = some h) = False := by
            simp [Ne.symm hne]
          simp [this]
      have hmh' : ∀ h, h ≠ "" →
          List.lookup h mh = (hashGroup (pre ++ [(p, oh)]) h).head? := by
        intro h hne
        rw [hgr h hne]
        exact hmh h hne
      have hdup' : ∀ h, h ≠ "" → List.lookup h dup =
          if 2 ≤ (hashGroup (pre ++ [(p, oh)]) h).length
          then some (hashGroup (pre ++ [(p, oh)]) h) else none := by
        intro h hne
        rw [hgr h hne]
        exact hdup h hne
      have hred : dupGo ((p, oh) :: rest') mh dup = dupGo rest' mh dup := by
        simp [dupGo, hstep]
      rw [hred]
      exact ih (pre ++ [(p, oh)]) mh dup hnodup hmh' hdup' hempty
    cases oh with
    | none => exact hskip (by simp [dupStep]) (Or.inl rfl)
    | some h₀ =>
      by_cases h0e : h₀ = ""
      · subst h0e
        exact hskip (by simp [dupStep]) (Or.inr rfl)
      -- a real hash
      · have hpnotpre : p ∉ pre.map Prod.fst := by
          rw [List.append_assoc] at hnodup
          rw [List.map_append] at hnodup
          obtain ⟨-, -, hdisj⟩ := List.nodup_append.mp hnodup
          intro hcon
          exact hdisj hcon (by simp)
        cases hmh0 : List.lookup h₀ mh with
        | none =>
          -- first occurrence of h₀
          have hg0 : hashGroup pre h₀ = [] := by
            have := hmh h₀ h0e
            rw [hmh0] at this
            exact List.head?_eq_none_iff.mp this.symm
          have hstep : dupStep mh dup p (some h₀) = (mh ++ [(h₀, p)], dup) := by
            simp [dupStep, h0e, hmh0]
          have hred : dupGo ((p, some h₀) :: rest') mh dup =
              dupGo rest' (mh ++ [(h₀, p)]) dup := by
            simp [dupGo, hstep]
          rw [hred]
          apply ih (pre ++ [(p, some h₀)]) (mh ++ [(h₀, p)]) dup hnodup
          · intro h hne
            rw [List.lookup_append, hashGroup_append_one]
            by_cases hh : h = h₀
            · subst hh
              rw [hmh0, hg0]
              have hb : (some h = some h) = True := by simp
              simp [hb]
            · have : (some h₀ = some h) = False := by
                simp [Ne.symm hh]
              simp only [this, if_false, List.append_nil]
              rw [hmh h hne]
              have hb : (h == h₀) = false := by simp [hh]
              simp [List.lookup_cons, hb]
          · intro h hne
            rw [hashGroup_append_one]
            by_cases hh : h = h₀
            · subst hh
              rw [hg0]
              simp [hdup h hne, hg0]
            · have : (some h₀ = some h) = False := by
                simp [Ne.symm hh]
              simp only [this, if_false, List.append_nil]
              exact hdup h hne
          · exact hempty
        | some p0 =>
          -- a duplicate of h₀
          have hg0 : (hashGroup pre h₀).head? = some p0 := by
            rw [← hmh h₀ h0e]
            exact hmh0
          obtain ⟨t, ht⟩ : ∃ t, hashGroup pre h₀ = p0 :: t := by
            cases hgc : hashGroup pre h₀ with
            | nil =>
              rw [hgc] at hg0
              simp at hg0
            | cons a t =>
              rw [hgc] at hg0
              simp only [List.head?_cons, Option.some.injEq] at hg0
              exact ⟨t, by rw [hg0]⟩
          have hp0pre : p0 ∈ pre.map Prod.fst :=
            hashGroup_subset_fst pre h₀ p0 (by rw [ht]; simp)
          have hp0p : p0 ≠ p := fun hcon => hpnotpre (hcon ▸ hp0pre)
          have hgnew : hashGroup (pre ++ [(p, some h₀)]) h₀ =
              hashGroup pre h₀ ++ [p] := by
            rw [hashGroup_append_one]
            simp
          by_cases hlen : 2 ≤ (hashGroup pre h₀).length
          · -- the group already exists
            have hdup0 : List.lookup h₀ dup = some (hashGroup pre h₀) := by
              rw [hdup h₀ h0e, if_pos hlen]
            have hstep : dupStep mh dup p (some h₀) =
                (mh, aset dup h₀ (hashGroup pre h₀ ++ [p])) := by
              simp [dupStep, h0e, hmh0, hdup0, ht]
            have hred : dupGo ((p, some h₀) :: rest') mh dup =
                dupGo rest' mh (aset dup h₀ (hashGroup pre h₀ ++ [p])) := by
              simp [dupGo, hstep]
            rw [hred]
            apply ih (pre ++ [(p, some h₀)]) mh _ hnodup
            · intro h hne
              by_cases hh : h = h₀
              · subst hh
                rw [hmh h hne, hgnew, ht]
                simp
              · rw [hmh h hne, hashGroup_append_one]
                have : (some h₀ = some h) = False := by simp [Ne.symm hh]
                simp [this]
            · intro h hne
              by_cases hh : h = h₀
              · subst hh
                rw [lookup_aset_self, hgnew]
                have hlen2 : 2 ≤ (hashGroup pre h ++ [p]).length := by
                  rw [List.length_append]
                  omega
                rw [if_pos hlen2]
              · rw [lookup_aset_ne dup h₀ h _ hh, hashGroup_append_one]
                have : (some h₀ = some h) = False := by simp [Ne.symm hh]
                simp only [this, if_false, List.append_nil]
                exact hdup h hne
            · rw [lookup_aset_ne dup h₀ "" _ (Ne.symm h0e)]
              exact hempty
          · -- second occurrence: the group is created now
            have hone : hashGroup pre h₀ = [p0] := by
              rw [ht]
              rw [ht] at hlen
              simp only [List.length_cons] at hlen
              have : t = [] := by
                cases t with
                | nil => rfl
                | cons a t' => simp at hlen
              rw [this]
            have hdup0 : List.lookup h₀ dup = none := by
              rw [hdup h₀ h0e, if_neg hlen]
            have hstep : dupStep mh dup p (some h₀) =
                (mh, aset dup h₀ [p0, p]) := by
              simp [dupStep, h0e, hmh0, hdup0, hp0p]
            have hred : dupGo ((p, some h₀) :: rest') mh dup =
                dupGo rest' mh (aset dup h₀ [p0, p]) := by
              simp [dupGo, hstep]
            rw [hred]
            apply ih (pre ++ [(p, some h₀)]) mh _ hnodup
            · intro h hne
              by_cases hh : h = h₀
              · subst hh
                rw [hmh h hne, hgnew, ht]
                simp
              · rw [hmh h hne, hashGroup_append_one]
                have : (some h₀ = some h) = False := by simp [Ne.symm hh]
                simp [this]
            · intro h hne
              by_cases hh : h = h₀
              · subst hh
                rw [lookup_aset_self, hgnew, hone]
                simp
              · rw [lookup_aset_ne dup h₀ h _ hh, hashGroup_append_one]
                have : (some h₀ = some h) = False := by simp [Ne.symm hh]
                simp only [this, if_false, List.append_nil]
                exact hdup h hne
            · rw [lookup_aset_ne dup h₀ "" _ (Ne.symm h0e)]
              exact hempty

/-! ## Claim C7 -/

/-- Claim C7: every group in the mapping returned by `find_duplicates`
has at least two members (never a singleton), its members are exactly
the files bearing that hash in discovery order — the first-seen
original in front of its later duplicates — and files whose hash could
not be computed appear in no group. -/
theorem find_duplicates_spec (files : List (String × Option String))
    (hnd : (files.map Prod.fst).Nodup) :
    ∀ h l, List.lookup h (find_duplicates files) = some l →
      2 ≤ l.length ∧
      l = hashGroup files h ∧
      (∀ p, (p, none) ∈ files → p ∉ l) := by
  have hpre : (([] ++ files).map Prod.fst).Nodup := by simpa using hnd
  obtain ⟨hmain, hemptyk⟩ := dupGo_spec files [] [] [] hpre
    (by intro h _; simp [hashGroup])
    (by intro h _; simp [hashGroup])
    (by simp [List.lookup])
  intro h l hl
  by_cases hne : h = ""
  · subst hne
    rw [show find_duplicates files = dupGo files [] [] from rfl, hemptyk] at hl
    exact absurd hl (by simp)
  · have := hmain h hne
    rw [show find_duplicates files = dupGo files [] [] from rfl] at hl
    rw [hl] at this
    simp only [List.nil_append] at this
    by_cases hlen : 2 ≤ (hashGroup files h).length
    · rw [if_pos hlen] at this
      have hleq : l = hashGroup files h := Option.some.inj this
      refine ⟨hleq ▸ hlen, hleq, ?_⟩
      intro p hpnone hpl
      rw [hleq] at hpl
      simp only [hashGroup, List.mem_map, List.mem_filter,
        decide_eq_true_eq] at hpl
      obtain ⟨q, ⟨hq, hqh⟩, hqp⟩ := hpl
      have hqeq : (p, (none : Option String)) = q :=
        List.inj_on_of_nodup_map hnd hpnone hq (by simpa using hqp.symm)
      rw [← hqeq] at hqh
      exact Option.noConfusion hqh
    · rw [if_neg hlen] at this
      exact absurd this.symm (by simp)

/-- Witness for C7: files `A,B,E` share a hash, `C` has another, `D` is
unreadable; the single group is `[A, B, E]`. -/
theorem find_duplicates_spec_witness :
    (([("A", some "h1"), ("B", some "h1"), ("C", some "h2"), ("D", none),
        ("E", some "h1")].map Prod.fst).Nodup) ∧
    (2 ≤ (["A", "B", "E"] : List String).length ∧
      ["A", "B", "E"] = hashGroup
        [("A", some "h1"), ("B", some "h1"), ("C", some "h2"), ("D", none),
          ("E", some "h1")] "h1" ∧
      (∀ p, (p, (none : Option String)) ∈
          [("A", some "h1"), ("B", some "h1"), ("C", some "h2"), ("D", none),
            ("E", some "h1")] → p ∉ (["A", "B", "E"] : List String))) :=
  ⟨by decide,
    find_duplicates_spec
      [("A", some "h1"), ("B", some "h1"), ("C", some "h2"), ("D", none),
        ("E", some "h1")] (by decide) "h1" ["A", "B", "E"] (by decide)⟩

/-! ### Stable descending sort (`list.sort(key=..., reverse=True)`) -/

theorem insertByDesc_perm {α : Type} (key : α → Int) (x : α) (l : List α) :
    (insertByDesc key x l).Perm (x :: l) := by
  induction l with
  | nil => exact List.Perm.refl _
  | cons y ys ih =>
    rw [insertByDesc]
    by_cases h : key y ≤ key x
    · rw [if_pos h]
    · rw [if_neg h]
      exact (ih.cons y).trans (List.Perm.swap x y ys)

theorem mem_insertByDesc {α : Type} (key : α → Int) (x z : α) (l : List α) :
    z ∈ insertByDesc key x l ↔ z = x ∨ z ∈ l := by
  rw [(insertByDesc_perm key x l).mem_iff, List.mem_cons]

theorem insertByDesc_sorted {α : Type} (key : α → Int) (x : α) (l : List α)
    (hs : l.Pairwise (fun a b => key b ≤ key a)) :
    (insertByDesc key x l).Pairwise (fun a b => key b ≤ key a) := by
  induction l with
  | nil => simp [insertByDesc]
  | cons y ys ih =>
    rw [insertByDesc]
    obtain ⟨hy, hys⟩ := List.pairwise_cons.mp hs
    by_cases h : key y ≤ key x
    · rw [if_pos h]
      refine List.pairwise_cons.mpr ⟨?_, hs⟩
      intro z hz
      rcases List.mem_cons.mp hz with rfl | hz'
      · exact h
      · exact le_trans (hy z hz') h
    · rw [if_neg h]
      refine List.pairwise_cons.mpr ⟨?_, ih hys⟩
      intro z hz
      rcases (mem_insertByDesc key x z ys).mp hz with rfl | hz'
      · omega
      · exact hy z hz'

theorem sortByDesc_perm {α : Type} (key : α → Int) (l : List α) :
    (sortByDesc key l).Perm l := by
  induction l with
  | nil => exact List.Perm.refl _
  | cons x xs ih =>
    rw [sortByDesc]
    exact (insertByDesc_perm key x (sortByDesc key xs)).trans (ih.cons x)

theorem sortByDesc_sorted {α : Type} (key : α → Int) (l : List α) :
    (sortByDesc key l).Pairwise (fun a b => key b ≤ key a) := by
  induction l with
  | nil => simp [sortByDesc]
  | cons x xs ih =>
    rw [sortByDesc]
    exact insertByDesc_sorted key x _ ih

theorem insertByDesc_filter_key {α : Type} (key : α → Int) (x : α)
    (l : List α) (s : Int) :
    (insertByDesc key x l).filter (fun a => decide (key a = s)) =
      if key x = s then x :: l.filter (fun a => decide (key a = s))
      else l.filter (fun a => decide (key a = s)) := by
  induction l with
  | nil =>
    by_cases h : key x = s <;> simp [insertByDesc, h]
  | cons y ys ih =>
    rw [insertByDesc]
    by_cases h : key y ≤ key x
    · rw [if_pos h]
      by_cases hx : key x = s <;> simp [List.filter_cons, hx]
    · rw [if_neg h]
      by_cases hx : key x = s
      · have hy : ¬ key y = s := by omega
        rw [if_pos hx]
        simp only [List.filter_cons, ih, if_pos hx]
        simp [hy]
      · rw [if_neg hx]
        simp only [List.filter_cons, ih, if_neg hx]

/-- Stability: for every key value, the sorted list keeps the elements
of that key in their original relative order. -/
theorem sortByDesc_filter_key {α : Type} (key : α → Int) (l : List α)
    (s : Int) :
    (sortByDesc key l).filter (fun a => decide (key a = s)) =
      l.filter (fun a => decide (key a = s)) := by
  induction l with
  | nil => rfl
  | cons x xs ih =>
    rw [sortByDesc, insertByDesc_filter_key]
    by_cases h : key x = s
    · rw [if_pos h, ih]
      simp [List.filter_cons, h]
    · rw [if_neg h, ih]
      simp [List.filter_cons, h]

/-! ## Claim C8 -/

/-- Claim C8: `top_n_large` returns at most `n` pairs, only statable
immediate file children, sorted by size descending with equal sizes in
discovery order (a stable sort on the scanned list), and on the five
sizes `[10,50,5,50,1]` with `n = 3` it returns the two 50-byte files in
their original relative order followed by the 10-byte file. -/
theorem top_n_large_spec (files : List (String × Option Nat)) (n : Nat) :
    (top_n_large files n).length ≤ n ∧
    (top_n_large files n).Pairwise (fun a b => b.2 ≤ a.2) ∧
    (∀ q ∈ top_n_large files n, (q.1, some q.2) ∈ files) ∧
    top_n_large files n =
      (sortByDesc (fun q => (q.2 : Int))
        (files.filterMap (fun q => q.2.map (fun s => (q.1, s))))).take n ∧
    (∀ s : Int,
      (sortByDesc (fun q => (q.2 : Int))
          (files.filterMap (fun q => q.2.map (fun s => (q.1, s))))).filter
          (fun a => decide ((a.2 : Int) = s)) =
        (files.filterMap (fun q => q.2.map (fun s => (q.1, s)))).filter
          (fun a => decide ((a.2 : Int) = s))) ∧
    top_n_large [("a", some 10), ("b", some 50), ("c", some 5),
      ("d", some 50), ("e", some 1)] 3 = [("b", 50), ("d", 50), ("a", 10)] := by
  refine ⟨List.length_take_le n _, ?_, ?_, rfl, ?_, by decide⟩
  · have hs := sortByDesc_sorted (fun q : String × Nat => (q.2 : Int))
      (files.filterMap (fun q => q.2.map (fun s => (q.1, s))))
    have ht := List.Pairwise.sublist (List.take_sublist n _) hs
    exact ht.imp (by intro a b hab; exact_mod_cast hab)
  · intro q hq
    have hmem : q ∈ sortByDesc (fun q : String × Nat => (q.2 : Int))
        (files.filterMap (fun q => q.2.map (fun s => (q.1, s)))) :=
      (List.take_sublist n _).subset hq
    have hok : q ∈ files.filterMap (fun q => q.2.map (fun s => (q.1, s))) :=
      (sortByDesc_perm _ _).subset hmem
    obtain ⟨a, ha, hfa⟩ := List.mem_filterMap.mp hok
    cases hsz : a.2 with
    | none =>
      rw [hsz] at hfa
      exact absurd hfa (by simp)
    | some sz =>
      rw [hsz] at hfa
      simp only [Option.map_some', Option.some.injEq] at hfa
      have h1 : a.1 = q.1 := congrArg Prod.fst hfa
      have h2 : sz = q.2 := congrArg Prod.snd hfa
      have : a = (q.1, some q.2) := by
        rw [← h1, ← h2, ← hsz]
      rw [← this]
      exact ha
  · intro s
    exact sortByDesc_filter_key _ _ s

/-! ## Claim C9 -/

/-- Claim C9: `recent_files` returns exactly the immediate file children
whose modification time is at least `now - days*86400`, sorted by
modification time descending; files modified before the cutoff are
excluded. -/
theorem recent_files_spec (files : List (String × Int)) (now days : Int) :
    (∀ q, q ∈ recent_files files now days ↔
      q ∈ files ∧ now - days * 86400 ≤ q.2) ∧
    (recent_files files now days).Pairwise (fun a b => b.2 ≤ a.2) ∧
    (∀ q ∈ files, q.2 < now - days * 86400 →
      q ∉ recent_files files now days) := by
  have hmem : ∀ q, q ∈ recent_files files now days ↔
      q ∈ files ∧ now - days * 86400 ≤ q.2 := by
    intro q
    rw [recent_files, (sortByDesc_perm _ _).mem_iff, List.mem_filter]
    simp
  refine ⟨hmem, ?_, ?_⟩
  · exact sortByDesc_sorted (fun q : String × Int => q.2) _
  · intro q hq hlt hcon
    have := (hmem q).mp hcon
    omega

/-! ### Preview-count invariants -/

theorem lookup_isSome_iff_mem_keys {α : Type} (l : List (String × α))
    (k : String) : (List.lookup k l).isSome ↔ k ∈ l.map Prod.fst := by
  rw [List.lookup_isSome_iff]
  simp

theorem aset_keys_mem {α : Type} (l : List (String × α)) (k : String) (v : α)
    (hk : k ∈ l.map Prod.fst) :
    (aset l k v).map Prod.fst = l.map Prod.fst := by
  induction l with
  | nil => simp at hk
  | cons kv rest ih =>
    obtain ⟨k', v'⟩ := kv
    by_cases h : k' = k
    · subst h
      simp [aset]
    · rw [aset, if_neg h]
      simp only [List.map_cons]
      simp only [List.map_cons] at hk
      rcases List.mem_cons.mp hk with rfl | hk'
      · exact absurd rfl h
      · rw [ih hk']

theorem sum_bump (counts : List (String × Nat)) (k : String)
    (hk : (List.lookup k counts).isSome) :
    ((bump counts k).map Prod.snd).sum = ((counts.map Prod.snd).sum) + 1 := by
  induction counts with
  | nil => simp [List.lookup] at hk
  | cons kv rest ih =>
    obtain ⟨k', v'⟩ := kv
    by_cases h : k' = k
    · subst h
      simp [bump, List.lookup_cons_self, aset]
      omega
    · have hb : (k == k') = false := by simp [Ne.symm h]
      have hlk : List.lookup k ((k', v') :: rest) = List.lookup k rest := by
        simp [List.lookup_cons, hb]
      rw [hlk] at hk
      have hbump : bump ((k', v') :: rest) k = (k', v') :: bump rest k := by
        rw [bump, hlk, aset, if_neg h]
        rw [bump]
      rw [hbump]
      simp only [List.map_cons, List.sum_cons]
      rw [ih hk]
      omega

theorem lookup_bump_self (counts : List (String × Nat)) (k : String) :
    List.lookup k (bump counts k) =
      some ((List.lookup k counts).getD 0 + 1) :=
  lookup_aset_self counts k _

theorem lookup_bump_ne (counts : List (String × Nat)) (k k' : String)
    (h : k' ≠ k) : List.lookup k' (bump counts k) = List.lookup k' counts :=
  lookup_aset_ne counts k k' _ h

/-- Fold invariant of `preview_counts`: starting from a table containing
every category the resolver can produce, the keys never change, the
total grows by one per file, and each key accumulates exactly the files
resolving to it. -/
theorem preview_fold_spec (cats : CatMap) :
    ∀ (suffixes : List String) (counts : List (String × Nat)),
      (∀ suf, (List.lookup (find_category cats suf) counts).isSome) →
      ((suffixes.foldl (fun c suf => bump c (find_category cats suf))
          counts).map Prod.fst = counts.map Prod.fst) ∧
      (((suffixes.foldl (fun c suf => bump c (find_category cats suf))
          counts).map Prod.snd).sum =
        (counts.map Prod.snd).sum + suffixes.length) ∧
      (∀ k v, List.lookup k counts = some v →
        List.lookup k (suffixes.foldl
            (fun c suf => bump c (find_category cats suf)) counts) =
          some (v + (suffixes.filter
            (fun s => decide (find_category cats s = k))).length)) := by
  intro suffixes
  induction suffixes with
  | nil =>
    intro counts _
    refine ⟨rfl, by simp, ?_⟩
    intro k v hv
    simpa using hv
  | cons suf rest ih =>
    intro counts hk
    have hk₀ := hk suf
    have hkeys₀ : (bump counts (find_category cats suf)).map Prod.fst =
        counts.map Prod.fst :=
      aset_keys_mem counts _ _
        ((lookup_isSome_iff_mem_keys counts _).mp hk₀)
    have hall : ∀ suf',
        (List.lookup (find_category cats suf')
          (bump counts (find_category cats suf))).isSome := by
      intro suf'
      rw [lookup_isSome_iff_mem_keys, hkeys₀,
        ← lookup_isSome_iff_mem_keys]
      exact hk suf'
    obtain ⟨ih1, ih2, ih3⟩ := ih (bump counts (find_category cats suf)) hall
    have hfold : (suf :: rest).foldl
        (fun c s => bump c (find_category cats s)) counts =
        rest.foldl (fun c s => bump c (find_category cats s))
          (bump counts (find_category cats suf)) := rfl
    refine ⟨?_, ?_, ?_⟩
    · rw [hfold, ih1, hkeys₀]
    · rw [hfold, ih2, sum_bump counts _ hk₀]
      simp only [List.length_cons]
      omega
    · intro k v hv
      rw [hfold]
      by_cases hkk : find_category cats suf = k
      · have hbv : List.lookup k (bump counts (find_category cats suf)) =
            some (v + 1) := by
          rw [hkk, lookup_bump_self, ← hkk, hkk, hv]
          rfl
        rw [ih3 k (v + 1) hbv]
        have hfil : (suf :: rest).filter
            (fun s => decide (find_category cats s = k)) =
            suf :: rest.filter (fun s => decide (find_category cats s = k)) := by
          simp [List.filter_cons, hkk]
        rw [hfil]
        simp only [List.length_cons]
        congr 1
        omega
      · have hbv : List.lookup k (bump counts (find_category cats suf)) =
            some v := by
          rw [lookup_bump_ne counts _ k (fun hc => hkk hc.symm), hv]
        rw [ih3 k v hbv]
        have hfil : (suf :: rest).filter
            (fun s => decide (find_category cats s = k)) =
            rest.filter (fun s => decide (find_category cats s = k)) := by
          simp [List.filter_cons, hkk]
        rw [hfil]

/-! ## Claim C10 -/

/-- Claim C10: on a successfully enumerated directory,
`preview_counts` returns a table with a key for every category of the
loaded mapping plus the fallback `OTHERS`, whose counts sum to the
number of immediate file children; each key holds exactly the number of
files whose suffix resolves to it. -/
theorem preview_counts_spec (cats : CatMap) (suffixes : List String) :
    (∀ c ∈ cats, c.1 ∈ (preview_counts cats suffixes).map Prod.fst) ∧
    "OTHERS" ∈ (preview_counts cats suffixes).map Prod.fst ∧
    ((preview_counts cats suffixes).map Prod.snd).sum = suffixes.length ∧
    (∀ k, k ∈ (preview_counts cats suffixes).map Prod.fst →
      List.lookup k (preview_counts cats suffixes) =
        some ((suffixes.filter
          (fun s => decide (find_category cats s = k))).length)) := by
  set init₀ : List (String × Nat) := cats.map (fun c => (c.1, 0)) with hinit₀
  set init : List (String × Nat) :=
    if (List.lookup "OTHERS" init₀).isSome then init₀
    else init₀ ++ [("OTHERS", 0)] with hinit
  have hpc : preview_counts cats suffixes =
      suffixes.foldl (fun counts suf => bump counts (find_category cats suf))
        init := rfl
  have hothers : "OTHERS" ∈ init.map Prod.fst := by
    rw [hinit]
    by_cases h : (List.lookup "OTHERS" init₀).isSome
    · rw [if_pos h]
      exact (lookup_isSome_iff_mem_keys init₀ "OTHERS").mp h
    · rw [if_neg h]
      simp
  have hcatkeys : ∀ c ∈ cats, c.1 ∈ init.map Prod.fst := by
    intro c hc
    have h0 : c.1 ∈ init₀.map Prod.fst := by
      rw [hinit₀]
      simp only [List.map_map]
      exact List.mem_map.mpr ⟨c, hc, rfl⟩
    rw [hinit]
    by_cases h : (List.lookup "OTHERS" init₀).isSome
    · rw [if_pos h]
      exact h0
    · rw [if_neg h]
      simp only [List.map_append]
      exact List.mem_append.mpr (Or.inl h0)
  have hzero : ∀ p ∈ init, p.2 = 0 := by
    intro p hp
    rw [hinit] at hp
    by_cases h : (List.lookup "OTHERS" init₀).isSome
    · rw [if_pos h] at hp
      rw [hinit₀] at hp
      obtain ⟨c, -, rfl⟩ := List.mem_map.mp hp
      rfl
    · rw [if_neg h] at hp
      rcases List.mem_append.mp hp with hp0 | hp1
      · rw [hinit₀] at hp0
        obtain ⟨c, -, rfl⟩ := List.mem_map.mp hp0
        rfl
      · simp only [List.mem_singleton] at hp1
        rw [hp1]
  have hsum0 : ((init.map Prod.snd).sum) = 0 := by
    have : ∀ x ∈ init.map Prod.snd, x = 0 := by
      intro x hx
      obtain ⟨p, hp, rfl⟩ := List.mem_map.mp hx
      exact hzero p hp
    exact List.sum_eq_zero this
  have hres : ∀ suf, (List.lookup (find_category cats suf) init).isSome := by
    intro suf
    rw [lookup_isSome_iff_mem_keys]
    rcases find_category_shape cats suf with h | ⟨ce, hce, h⟩
    · rw [h]
      exact hothers
    · rw [h]
      exact hcatkeys ce hce
  obtain ⟨hkeys, hsum, hcount⟩ := preview_fold_spec cats suffixes init hres
  have hlookzero : ∀ k, k ∈ init.map Prod.fst →
      List.lookup k init = some 0 := by
    intro k hkm
    have hs := (lookup_isSome_iff_mem_keys init k).mpr hkm
    cases hl : List.lookup k init with
    | none => rw [hl] at hs; exact absurd hs (by simp)
    | some v =>
      obtain ⟨l₁, l₂, hsplit, -⟩ := List.lookup_eq_some_iff.mp hl
      have hmem : (k, v) ∈ init := by
        rw [hsplit]
        exact List.mem_append.mpr (Or.inr (List.mem_cons_self _ _))
      have hv0 : v = 0 := hzero (k, v) hmem
      rw [hv0]
  refine ⟨?_, ?_, ?_, ?_⟩
  · intro c hc
    rw [hpc, hkeys]
    exact hcatkeys c hc
  · rw [hpc, hkeys]
    exact hothers
  · rw [hpc, hsum, hsum0]
    omega
  · intro k hkm
    rw [hpc] at hkm ⊢
    rw [hkeys] at hkm
    have := hcount k 0 (hlookzero k hkm)
    rw [this]
    simp

/-- Witness for C8: the 50-byte file `b` appears in the top-3 and is a
real scanned child. -/
theorem top_n_large_spec_witness :
    (("b", 50) : String × Nat) ∈ top_n_large
      [("a", some 10), ("b", some 50), ("c", some 5), ("d", some 50),
        ("e", some 1)] 3 ∧
    (("b", some 50) : String × Option Nat) ∈
      [("a", some 10), ("b", some 50), ("c", some 5), ("d", some 50),
        ("e", some 1)] :=
  ⟨by decide,
    (top_n_large_spec
      [("a", some 10), ("b", some 50), ("c", some 5), ("d", some 50),
        ("e", some 1)] 3).2.2.1 ("b", 50) (by decide)⟩

/-- Witness for C9: with a 7-day window at `now = 1000000`, the file
modified at time 0 is excluded. -/
theorem recent_files_spec_witness :
    (("old", (0 : Int)) ∈ [("old", (0 : Int)), ("new", 999000)]) ∧
    ((0 : Int) < 1000000 - 7 * 86400) ∧
    ("old", (0 : Int)) ∉
      recent_files [("old", (0 : Int)), ("new", 999000)] 1000000 7 :=
  ⟨by decide, by decide,
    (recent_files_spec [("old", (0 : Int)), ("new", 999000)] 1000000 7).2.2
      ("old", (0 : Int)) (by decide) (by decide)⟩

/-- Witness for C10: two `.txt`-resolving files and one unmapped file
give `DOCS ↦ 2`. -/
theorem preview_counts_spec_witness :
    "DOCS" ∈ (preview_counts exCats [".txt", ".TXT", ".xyz"]).map Prod.fst ∧
    List.lookup "DOCS" (preview_counts exCats [".txt", ".TXT", ".xyz"]) =
      some (([".txt", ".TXT", ".xyz"].filter
        (fun s => decide (find_category exCats s = "DOCS"))).length) :=
  ⟨by decide,
    (preview_counts_spec exCats [".txt", ".TXT", ".xyz"]).2.2.2 "DOCS"
      (by decide)⟩

end FileDock
